import Mathlib

set_option maxHeartbeats 1000000

/- Shallow embedding of the graph_compiler repository
   (src/graph_compiler/graph.py and src/graph_compiler/compiler.py).
   Python dicts are modelled as insertion-ordered association lists,
   Python sets as lists used only through membership; fallible code
   returns Except. -/

/-- Python-like runtime values; numpy arrays are modelled as an
opaque wrapper around the value they were built from. -/
inductive Val where
  | none : Val
  | int : Int → Val
  | str : String → Val
  | np : Val → Val
  | dict : List (String × Val) → Val

/-- The "value is None" test of Python. -/
def Val.isNone : Val → Bool
  | Val.none => true
  | _ => false

/-- isinstance(v, np.ndarray). -/
def Val.isNp : Val → Bool
  | Val.np _ => true
  | _ => false

/-- Association list keyed by strings: the model of a Python dict.
Insertion order is the list order, as in CPython. -/
abbrev AL (α : Type) : Type := List (String × α)

/-- Dict lookup (dict.get): first entry with the given key. -/
def alGet {α : Type} (m : AL α) (k : String) : Option α :=
  (m.find? (fun p => p.1 == k)).map (fun p => p.2)

/-- Dict lookup with default (dict.get(k, d)). -/
def alGetD {α : Type} (m : AL α) (k : String) (d : α) : α :=
  (alGet m k).getD d

/-- Dict assignment: update in place if the key exists (keeping its
position, as CPython does), otherwise append. -/
def alUpsert {α : Type} : AL α → String → α → AL α
  | [], k, v => [(k, v)]
  | p :: ps, k, v => if p.1 == k then (k, v) :: ps else p :: alUpsert ps k v

/-- defaultdict(list) append: m[k].append(v). -/
def alPush {α : Type} (m : AL (List α)) (k : String) (v : α) : AL (List α) :=
  alUpsert m k (alGetD m k [] ++ [v])

/-- The keys of a dict, in order. -/
def alKeys {α : Type} (m : AL α) : List String := m.map (fun p => p.1)

/-- Removal of a key (used only to state theorems about absent keys). -/
def alRemove {α : Type} (m : AL α) (k : String) : AL α :=
  m.filter (fun p => p.1 ≠ k)

/-- Python set.add modelled on a list: membership is what matters. -/
def setAdd (l : List String) (x : String) : List String :=
  if x ∈ l then l else l ++ [x]

/-- Python truthiness of an optional string (None and the empty string
are falsy); "node.uid or node_id" is truthyOr node.uid node_id. -/
def truthyOr : Option String → String → String
  | Option.none, d => d
  | Option.some s, d => if s = "" then d else s

/-- Truthiness test for an optional string. -/
def truthyStr : Option String → Bool
  | Option.none => false
  | Option.some s => s != ""

/-- Split a character list at the first colon, if any. -/
def splitColonAux : List Char → Option (List Char × List Char)
  | [] => Option.none
  | c :: cs =>
    if c = ':' then Option.some ([], cs)
    else (splitColonAux cs).map (fun p => (c :: p.1, p.2))

/-- Graph.split_port_id: s.split(":", 1) preceded by the "':' in s" test. -/
def splitPortId (s : String) : String × Option String :=
  match splitColonAux s.toList with
  | Option.none => (s, Option.none)
  | Option.some (a, b) => (String.mk a, Option.some (String.mk b))

/-- extract_node_id_from_source: the text before the first colon
(s.split(":")[0] agrees with s.split(":", 1)[0]). -/
def extractNodeIdFromSource (s : String) : String :=
  (splitPortId s).1

/-- str.endswith for our purposes. -/
def strEndsWith (s suffix : String) : Bool :=
  List.isSuffixOf suffix.toList s.toList

/- ------------------------------------------------------------------ -/
/- Raw IR (the json_data dictionaries of graph.py)                     -/
/- ------------------------------------------------------------------ -/

/-- The data dict of a raw node; each field models one key the code
reads with .get (label defaults to "", is_input to falsy, and
output_ports is present or absent). -/
structure NodeData where
  label : String := ""
  is_input : Bool := false
  output_ports : Option (List String) := Option.none
deriving DecidableEq, Repr

/-- A raw node descriptor. -/
structure RawNode where
  id : String
  uid : Option String := Option.none
  type : Option String := Option.none
  data : NodeData := {}
deriving DecidableEq, Repr

/-- A raw connection descriptor (the sourceOutput key is never read by
the code, so it is not modelled). -/
structure RawConn where
  source : String
  target : String
  targetInput : String
deriving DecidableEq, Repr

/-- Raw graph description (json_data). -/
structure RawGraph where
  nodes : List RawNode
  connections : List RawConn
deriving DecidableEq, Repr

/-- The identity of a connection used when removing variable-node
edges: the (source, target, targetInput) triple. -/
def connTuple (c : RawConn) : String × String × String :=
  (c.source, c.target, c.targetInput)

/- ------------------------------------------------------------------ -/
/- process_variable_nodes                                              -/
/- ------------------------------------------------------------------ -/

/-- connections_by_target / connections_by_source / build_reverse_graph
all build a defaultdict(list) keyed by a projection of the connection;
this is the shared fold. -/
def alGroup {α : Type} (key : RawConn → String) (val : RawConn → α)
    (conns : List RawConn) : AL (List α) :=
  conns.foldl (fun m c => alPush m (key c) (val c)) []

/-- variable_groups: variable nodes grouped by nonempty label. -/
def variableGroups (varNodes : List RawNode) : AL (List RawNode) :=
  varNodes.foldl
    (fun m n => if n.data.label ≠ "" then alPush m n.data.label n else m) []

/-- Whether a label group is processed: it has a first is_input node
(the writer) and at least one non-is_input node (a reader). -/
def groupWriter (grp : List RawNode) : Option RawNode :=
  grp.find? (fun n => n.data.is_input)

/-- The readers of a label group. -/
def groupReaders (grp : List RawNode) : List RawNode :=
  grp.filter (fun n => !n.data.is_input)

/-- The connections synthesized for the variable groups: for each
processed group, for each reader, the cross product of the edges
feeding the writer with the edges leaving that reader. -/
def variableNewConnections (groups : AL (List RawNode))
    (byTarget bySource : AL (List RawConn)) : List RawConn :=
  groups.flatMap (fun g =>
    match groupWriter g.2 with
    | Option.none => []
    | Option.some w =>
      let readers := groupReaders g.2
      if readers = [] then []
      else
        readers.flatMap (fun r =>
          (alGetD byTarget w.id []).flatMap (fun ic =>
            (alGetD bySource r.id []).map (fun oc =>
              { source := ic.source, target := oc.target,
                targetInput := oc.targetInput }))))

/-- The connections marked for removal: for each processed group, the
outgoing connections of each reader. -/
def variableRemovedConnections (groups : AL (List RawNode))
    (bySource : AL (List RawConn)) : List RawConn :=
  groups.flatMap (fun g =>
    match groupWriter g.2 with
    | Option.none => []
    | Option.some _ =>
      let readers := groupReaders g.2
      if readers = [] then []
      else readers.flatMap (fun r => alGetD bySource r.id []))

/-- process_variable_nodes: remove the readers' outgoing edges and add
the synthesized direct edges. The node list is untouched. -/
def processVariableNodes (g : RawGraph) : RawGraph :=
  let varNodes := g.nodes.filter (fun n => n.type == Option.some "variable")
  let groups := variableGroups varNodes
  let byTarget := alGroup (fun c => c.target) (fun c => c) g.connections
  let bySource := alGroup (fun c => c.source) (fun c => c) g.connections
  let newConns := variableNewConnections groups byTarget bySource
  let removedTuples :=
    (variableRemovedConnections groups bySource).map connTuple
  { nodes := g.nodes,
    connections :=
      g.connections.filter (fun c => !(removedTuples.contains (connTuple c)))
        ++ newConns }

/- ------------------------------------------------------------------ -/
/- optimize_graph                                                      -/
/- ------------------------------------------------------------------ -/

/-- find_reachable_nodes: BFS over the reverse graph; fuel bounds the
iterations (pops never exceed the initial queue plus the total length
of the adjacency lists, so the fuel passed below is always enough). -/
def findReachable (rev : AL (List String)) :
    Nat → List String → List String → List String
  | 0, _, visited => visited
  | _ + 1, [], visited => visited
  | fuel + 1, x :: q, visited =>
    if x ∈ visited then findReachable rev fuel q visited
    else
      let visited2 := visited ++ [x]
      let deps := (alGetD rev x []).map extractNodeIdFromSource
      findReachable rev fuel (q ++ deps.filter (fun d => d ∉ visited2)) visited2

/-- Fuel that always suffices for findReachable. -/
def reachFuel (starts : List String) (rev : AL (List String)) : Nat :=
  starts.length + (rev.map (fun p => p.2.length)).sum + 1

/-- build_reverse_graph: target id to the list of (full) source strings. -/
def buildReverseGraph (conns : List RawConn) : AL (List String) :=
  alGroup (fun c => c.target) (fun c => c.source) conns

/-- The out-node ids of a raw graph, as the Python set (first
occurrences retained; only membership is ever used). -/
def outNodeIds (g : RawGraph) : List String :=
  ((g.nodes.filter (fun n => n.type == Option.some "out")).map
    (fun n => n.id)).foldl setAdd []

/-- The used-node set of optimize_graph computed on the post-elision
graph: nodes backward-reachable from outputs, plus every connection
source node, plus every in-node. -/
def usedNodes (g : RawGraph) : List String :=
  let rev := buildReverseGraph g.connections
  let outs := outNodeIds g
  let reach := findReachable rev (reachFuel outs rev) outs []
  let withSources :=
    g.connections.foldl
      (fun acc c => setAdd acc (extractNodeIdFromSource c.source)) reach
  (g.nodes.filter (fun n => n.type == Option.some "in")).foldl
    (fun acc n => setAdd acc n.id) withSources

/-- optimize_graph: variable elision, then retention of the used nodes
and of the connections between used nodes. -/
def optimizeGraph (g : RawGraph) : RawGraph :=
  let g1 := processVariableNodes g
  let used := usedNodes g1
  { nodes := g1.nodes.filter (fun n => n.id ∈ used),
    connections := g1.connections.filter
      (fun c => c.target ∈ used ∧ extractNodeIdFromSource c.source ∈ used) }

/- ------------------------------------------------------------------ -/
/- The Graph class                                                     -/
/- ------------------------------------------------------------------ -/

/-- A constructed Node (the dataclass of graph.py). -/
structure NodeL where
  id : String
  uid : Option String := Option.none
  type : Option String := Option.none
  data : NodeData := {}
  output_ports : List String := []
deriving DecidableEq, Repr

/-- Node construction inside Graph.__init__: output_ports comes from
data when declared, else defaults to a single "default" port for
compute-like node types and to the empty list otherwise. -/
def buildNode (rn : RawNode) : NodeL :=
  { id := rn.id, uid := rn.uid, type := rn.type, data := rn.data,
    output_ports :=
      match rn.data.output_ports with
      | Option.some ps => ps
      | Option.none =>
        if rn.type = Option.some "compute" ∨ rn.type = Option.some "function"
            ∨ rn.type = Option.some "variable" then ["default"]
        else [] }

/-- self.nodes: id-keyed dict built over the optimized node list (a
repeated id silently overwrites the earlier node). -/
def buildNodesMap (ns : List RawNode) : AL NodeL :=
  ns.foldl (fun m rn => alUpsert m rn.id (buildNode rn)) []

/-- self.connections: target -> (slot -> full source string). -/
def buildConnsMap (cs : List RawConn) : AL (AL String) :=
  cs.foldl
    (fun m c =>
      alUpsert m c.target (alUpsert (alGetD m c.target []) c.targetInput c.source))
    []

/- _topological_sort.  The dependency-graph construction can raise a
KeyError (in_degree[target] += 1 with a target that is not a node), so
it returns Except. -/

/-- One in_degree increment plus adjacency append, guarded as in the
source: only sources that are nodes count. -/
def buildDepsStep (ids : List String) (st : AL Int × AL (List String))
    (target : String) (source : String) :
    Except String (AL Int × AL (List String)) :=
  let sid := (splitPortId source).1
  if sid ∈ ids then
    match alGet st.1 target with
    | Option.none => Except.error ("KeyError: " ++ target)
    | Option.some d =>
      Except.ok (alUpsert st.1 target (d + 1), alPush st.2 sid target)
  else Except.ok st

/-- The inner loop of the dependency construction: one target's slots
in insertion order. -/
def buildDepsSlots (ids : List String) (target : String) :
    List (String × String) → AL Int × AL (List String) →
    Except String (AL Int × AL (List String))
  | [], st => Except.ok st
  | sl :: rest, st =>
    match buildDepsStep ids st target sl.2 with
    | Except.error e => Except.error e
    | Except.ok st2 => buildDepsSlots ids target rest st2

/-- The outer loop of the dependency construction: the targets of
self.connections in insertion order. -/
def buildDepsGo (ids : List String) :
    List (String × AL String) → AL Int × AL (List String) →
    Except String (AL Int × AL (List String))
  | [], st => Except.ok st
  | e :: rest, st =>
    match buildDepsSlots ids e.1 e.2 st with
    | Except.error err => Except.error err
    | Except.ok st2 => buildDepsGo ids rest st2

/-- The dependency graph and in-degrees of _topological_sort, walking
self.connections in insertion order (in_degree starts at zero for every
node; the later re-initialisation loop of the source is a no-op). -/
def buildDeps (ids : List String) (conns : AL (AL String)) :
    Except String (AL Int × AL (List String)) :=
  buildDepsGo ids conns (ids.map (fun i => (i, (0 : Int))), [])

/-- The inner loop over the neighbors of a popped node: decrement each
neighbor's in-degree and enqueue it when the count reaches zero. -/
def processNeighbors : List String → List String → AL Int →
    Except String (List String × AL Int)
  | [], q, d => Except.ok (q, d)
  | t :: ts, q, d =>
    match alGet d t with
    | Option.none => Except.error ("KeyError: " ++ t)
    | Option.some v =>
      processNeighbors ts (if v - 1 = 0 then q ++ [t] else q) (alUpsert d t (v - 1))

/-- Kahn's queue loop; each iteration pops one node, so fuel equal to
the node count always suffices (each node is enqueued at most once). -/
def kahnLoop (adj : AL (List String)) :
    Nat → List String → AL Int → List String → Except String (List String)
  | 0, _, _, acc => Except.ok acc
  | _ + 1, [], _, acc => Except.ok acc
  | fuel + 1, x :: q, d, acc =>
    match processNeighbors (alGetD adj x []) q d with
    | Except.error e => Except.error e
    | Except.ok (q2, d2) => kahnLoop adj fuel q2 d2 (acc ++ [x])

/-- The Kahn phase of _topological_sort: dependency construction, the
zero-in-degree queue in node declaration order, then the loop. -/
def kahnPhase (ids : List String) (conns : AL (AL String)) :
    Except String (List String) := do
  let (d0, adj) ← buildDeps ids conns
  let q0 := ids.filter (fun n => alGet d0 n == Option.some 0)
  kahnLoop adj ids.length q0 d0 []

/-- _topological_sort: the Kahn phase followed by the fallback that
appends every unscheduled node in declaration order (the code prints a
warning there but raises nothing). -/
def topologicalSort (ids : List String) (conns : AL (AL String)) :
    Except String (List String) := do
  let part ← kahnPhase ids conns
  Except.ok (part ++ ids.filter (fun n => !(part.contains n)))

/-- _build_port_mapping for one node. -/
def portMappingFor (n : NodeL) : AL String :=
  if n.output_ports ≠ [] then
    n.output_ports.map (fun p => (p, n.id ++ ":" ++ p))
  else if n.type = Option.some "in" then [("default", n.id)]
  else if n.type = Option.some "out" then []
  else [("default", n.id)]

/-- _build_port_mapping. -/
def buildPortMapping (nodes : AL NodeL) : AL (AL String) :=
  nodes.map (fun p => (p.1, portMappingFor p.2))

/-- The constructed Graph: the fields Graph.__init__ stores that the
compiler reads (port_connections is built but never read by the
compiler, so it is not modelled). -/
structure GraphL where
  nodes : AL NodeL
  connections : AL (AL String)
  sort : List String
  input_ids : List String
  output_ids : List String
  all_ports : AL (AL String)
deriving Repr

/-- Graph.__init__ on raw json data: optimize, build the node and
connection tables, topologically sort (the only failing step), and
derive input/output ids and the port mapping. -/
def buildGraph (raw : RawGraph) : Except String GraphL := do
  let opt := optimizeGraph raw
  let nodes := buildNodesMap opt.nodes
  let conns := buildConnsMap opt.connections
  let sort ← topologicalSort (alKeys nodes) conns
  Except.ok
    { nodes := nodes, connections := conns, sort := sort,
      input_ids :=
        (nodes.filter (fun p => p.2.type == Option.some "in")).map (fun p => p.1),
      output_ids :=
        (nodes.filter (fun p => p.2.type == Option.some "out")).map (fun p => p.1),
      all_ports := buildPortMapping nodes }

/-- validate_connections: a list of error strings (construction never
calls this and nothing raises). -/
def validateConnections (g : GraphL) : List String :=
  g.connections.flatMap (fun e =>
    match alGet g.nodes e.1 with
    | Option.none => ["target node " ++ e.1 ++ " does not exist"]
    | Option.some _ =>
      e.2.flatMap (fun sl =>
        let (sid, sport) := splitPortId sl.2
        match alGet g.nodes sid with
        | Option.none => ["source node " ++ sid ++ " does not exist"]
        | Option.some sn =>
          match sport with
          | Option.none => []
          | Option.some p =>
            if p ≠ "" ∧ p ∉ sn.output_ports then
              ["port " ++ p ++ " does not exist on node " ++ sid]
            else []))

/- ------------------------------------------------------------------ -/
/- compiler.py                                                         -/
/- ------------------------------------------------------------------ -/

/-- A registered node function: (node, node_inputs, results) -> value,
possibly raising. -/
abbrev NodeFn : Type := NodeL → AL Val → AL Val → Except String Val

/-- A compiled per-node closure: input-node closures receive the input
bundle, the others receive the port-result map. -/
abbrev CompiledFn : Type := AL Val → Except String Val

/-- results.get(k): None when the key is absent. -/
def pyGet (m : AL Val) (k : String) : Val :=
  alGetD m k Val.none

/-- np.array(value) if not isinstance(value, np.ndarray) else value. -/
def npCoerce (v : Val) : Val :=
  if v.isNp then v else Val.np v

/-- The error message of create_input_node_func. -/
def inputErrMsg (uid : String) : String :=
  "KeyError: input value for " ++ uid ++ " not provided"

/-- create_input_node_func: read the bundle by uid (falling back to the
node id), raise when the result is None — an explicit None value and an
absent key are treated identically by dict.get — else coerce. -/
def createInputNodeFunc (node : NodeL) : CompiledFn :=
  fun input_values =>
    let uid := truthyOr node.uid node.id
    let value := pyGet input_values uid
    if value.isNone then Except.error (inputErrMsg uid)
    else Except.ok (npCoerce value)

/-- create_output_node_func: one input slot returns the looked-up value
directly (results.get, hence None when absent); several slots return a
keyed dict of looked-up values; no failure path exists. -/
def createOutputNodeFunc (_node : NodeL) (input_sources : AL String) : CompiledFn :=
  fun results =>
    if input_sources.length = 1 then
      Except.ok (pyGet results (input_sources.headI.2))
    else
      Except.ok (Val.dict
        (input_sources.foldl
          (fun acc sl => alUpsert acc sl.1 (pyGet results sl.2)) []))

/-- The port-scanning fallback of computation_func: the first port of
the source node whose full id is in the results and matches the
requested port name as a suffix (or, with no port requested, equals the
bare node id). -/
def scanPorts (port_results : AL Val) (nid : String) (pname : Option String) :
    List String → Option Val
  | [] => Option.none
  | full :: rest =>
    match alGet port_results full with
    | Option.none => scanPorts port_results nid pname rest
    | Option.some v =>
      if truthyStr pname ∧ strEndsWith full (":" ++ (pname.getD "")) then
        Option.some v
      else if ¬ truthyStr pname ∧ full = nid then Option.some v
      else scanPorts port_results nid pname rest

/-- The input-gathering loop of computation_func: exact port-result key
first, then the port-mapping scan; a slot that resolves nowhere is
silently left out of the inputs. -/
def gatherInputs (input_sources : AL String) (port_mapping : AL (AL String))
    (port_results : AL Val) : AL Val :=
  input_sources.foldl
    (fun inputs sl =>
      match alGet port_results sl.2 with
      | Option.some v => alUpsert inputs sl.1 v
      | Option.none =>
        let (nid, pname) := splitPortId sl.2
        match alGet port_mapping nid with
        | Option.none => inputs
        | Option.some pm =>
          match scanPorts port_results nid pname (pm.map (fun p => p.2)) with
          | Option.some v => alUpsert inputs sl.1 v
          | Option.none => inputs)
    []

/-- _create_computation_node_func, after the compile-time pool check:
gather the inputs, invoke the registered function, and wrap any failure
it raises with the node id and uid. -/
def computationFunc (node : NodeL) (input_sources : AL String)
    (port_mapping : AL (AL String)) (node_fn : NodeFn) : CompiledFn :=
  fun port_results =>
    let inputs := gatherInputs input_sources port_mapping port_results
    match node_fn node inputs port_results with
    | Except.ok r => Except.ok r
    | Except.error e =>
      Except.error ("RuntimeError: error in node " ++ node.id ++ ": " ++ e)

/-- _compile_nodes for one node: dispatch on type; a computation node
whose uid is absent from the pool is a compile-time KeyError. -/
def compileNode (pool : AL NodeFn) (g : GraphL) (node : NodeL) :
    Except String CompiledFn :=
  let input_sources := alGetD g.connections node.id []
  if node.type = Option.some "in" then
    Except.ok (createInputNodeFunc node)
  else if node.type = Option.some "out" then
    Except.ok (createOutputNodeFunc node input_sources)
  else
    match node.uid with
    | Option.none => Except.error "KeyError: function for uid None not found"
    | Option.some u =>
      match alGet pool u with
      | Option.none =>
        Except.error ("KeyError: function for uid " ++ u ++ " not found")
      | Option.some f =>
        Except.ok (computationFunc node input_sources g.all_ports f)

/-- The compiled program: the node list in schedule order with the
per-node closures, plus the declared input and output ids. -/
structure CompiledL where
  node_list : List (NodeL × CompiledFn)
  all_ports : AL (AL String)
  input_ids : List String
  output_ids : List String

/-- GraphCompiler.compile: iterate the schedule (a KeyError if the
schedule named an unknown node), compile each node, and package the
calculator inputs. -/
def GraphCompiler.compilePlan (pool : AL NodeFn) (g : GraphL) :
    Except String CompiledL := do
  let entries ← g.sort.mapM (fun nid =>
    match alGet g.nodes nid with
    | Option.none => Except.error ("KeyError: " ++ nid)
    | Option.some n => Except.ok n)
  let node_list ← entries.mapM (fun n => do
    let f ← compileNode pool g n
    Except.ok (n, f))
  Except.ok
    { node_list := node_list, all_ports := g.all_ports,
      input_ids := g.input_ids, output_ids := g.output_ids }

/-- One iteration of the calculator loop: run the node's closure on the
input bundle (input nodes, with the extra default-port store) or on the
port results, then register the result — outputs for out nodes, port
results keyed by node and port otherwise. -/
def calcStep (port_mapping : AL (AL String)) (input_values : AL Val)
    (st : AL Val × AL Val) (e : NodeL × CompiledFn) :
    Except String (AL Val × AL Val) :=
  let (port_results, outputs) := st
  let node := e.1
  let step1 :
      Except String (Val × AL Val) :=
    if node.type = Option.some "in" then
      match e.2 input_values with
      | Except.error err => Except.error err
      | Except.ok result =>
        let default_port :=
          if (alGet (alGetD port_mapping node.id []) "default").isSome then
            node.id ++ ":default"
          else node.id
        Except.ok (result, alUpsert port_results default_port result)
    else
      match e.2 port_results with
      | Except.error err => Except.error err
      | Except.ok result => Except.ok (result, port_results)
  match step1 with
  | Except.error err => Except.error err
  | Except.ok (result, pr) =>
    if node.type = Option.some "out" then
      Except.ok (pr, alUpsert outputs (truthyOr node.uid node.id) result)
    else
      match result with
      | Val.dict entries =>
        Except.ok
          (entries.foldl
            (fun acc p => alUpsert acc (node.id ++ ":" ++ p.1) p.2) pr,
           outputs)
      | r =>
        let port_id :=
          if node.output_ports ≠ [] then
            node.id ++ ":" ++ node.output_ports.headI
          else node.id
        Except.ok (alUpsert pr port_id r, outputs)

/-- CompiledGraph.execute: fold the calculator over the node list with
a fresh port-result store and output store, returning the outputs. -/
def executePlan (c : CompiledL) (input_values : AL Val) :
    Except String (AL Val) := do
  let st ← c.node_list.foldlM (calcStep c.all_ports input_values) ([], [])
  Except.ok st.2

/-- Build, compile and execute in one step. -/
def executeRaw (pool : AL NodeFn) (raw : RawGraph) (input_values : AL Val) :
    Except String (AL Val) := do
  let g ← buildGraph raw
  let c ← GraphCompiler.compilePlan pool g
  executePlan c input_values

/- ------------------------------------------------------------------ -/
/- Precedence in a schedule                                            -/
/- ------------------------------------------------------------------ -/

/-- s precedes t in l: some occurrence of t has s strictly before it. -/
def PrecedesIn (l : List String) (s t : String) : Prop :=
  ∃ l1 l2, l = l1 ++ t :: l2 ∧ s ∈ l1

/-- Executable precedence test. -/
def precedesB : List String → String → String → Bool
  | [], _, _ => false
  | x :: rest, s, t => (x == s && rest.contains t) || precedesB rest s t

theorem precedesB_iff (l : List String) (s t : String) :
    precedesB l s t = true ↔ PrecedesIn l s t := by
  induction l with
  | nil =>
    simp only [precedesB, PrecedesIn]
    constructor
    · intro h; cases h
    · rintro ⟨l1, l2, heq, hmem⟩
      cases l1 <;> simp_all
  | cons x rest ih =>
    simp only [precedesB, Bool.or_eq_true, Bool.and_eq_true, beq_iff_eq,
      List.elem_iff]
    constructor
    · rintro (⟨hx, hmem⟩ | h)
      · obtain ⟨r1, r2, hr⟩ := List.append_of_mem hmem
        exact ⟨x :: r1, r2, by simp [hr], by simp [hx]⟩
      · obtain ⟨l1, l2, heq, hmem⟩ := ih.mp h
        exact ⟨x :: l1, l2, by simp [heq], by simp [hmem]⟩
    · rintro ⟨l1, l2, heq, hmem⟩
      cases l1 with
      | nil => cases hmem
      | cons a l1 =>
        simp only [List.cons_append, List.cons.injEq] at heq
        obtain ⟨rfl, heq⟩ := heq
        rcases List.mem_cons.mp hmem with rfl | hmem2
        · left; exact ⟨rfl, by rw [heq]; simp⟩
        · right; exact ih.mpr ⟨l1, l2, heq, hmem2⟩

instance (l : List String) (s t : String) : Decidable (PrecedesIn l s t) :=
  decidable_of_iff _ (precedesB_iff l s t)

/- ------------------------------------------------------------------ -/
/- Concrete graphs used in the theorems                                -/
/- ------------------------------------------------------------------ -/

/-- Modelled from the spec: the tensor addition function the external
registry supplies under uid "add" (the registry itself is outside the
core, section 6 of the spec); it raises a KeyError when an input slot
was not gathered, as the Python function would on node_inputs access. -/
def addFn : NodeFn := fun _ inputs _ =>
  match alGet inputs "a", alGet inputs "b" with
  | Option.some (Val.np (Val.int x)), Option.some (Val.np (Val.int y)) =>
    Except.ok (Val.np (Val.int (x + y)))
  | _, _ => Except.error "KeyError"

/-- The end-to-end graph of the spec: a, b -> add -> result. -/
def c3raw : RawGraph :=
  { nodes := [
      { id := "a", uid := Option.some "a", type := Option.some "in" },
      { id := "b", uid := Option.some "b", type := Option.some "in" },
      { id := "add", uid := Option.some "add", type := Option.some "compute" },
      { id := "result", uid := Option.some "result", type := Option.some "out" } ],
    connections := [
      { source := "a", target := "add", targetInput := "a" },
      { source := "b", target := "add", targetInput := "b" },
      { source := "add", target := "result", targetInput := "value" } ] }

/-- A two-node compute cycle feeding an output. -/
def c2raw : RawGraph :=
  { nodes := [
      { id := "m", uid := Option.some "m", type := Option.some "compute" },
      { id := "n", uid := Option.some "n", type := Option.some "compute" },
      { id := "o2", uid := Option.some "o2", type := Option.some "out" } ],
    connections := [
      { source := "m", target := "n", targetInput := "x" },
      { source := "n", target := "m", targetInput := "y" },
      { source := "n", target := "o2", targetInput := "v" } ] }

/-- Another two-node compute cycle feeding an output. -/
def c6raw : RawGraph :=
  { nodes := [
      { id := "p", uid := Option.some "p", type := Option.some "compute" },
      { id := "q", uid := Option.some "q", type := Option.some "compute" },
      { id := "o", uid := Option.some "o", type := Option.some "out" } ],
    connections := [
      { source := "p", target := "q", targetInput := "x" },
      { source := "q", target := "p", targetInput := "y" },
      { source := "q", target := "o", targetInput := "v" } ] }

/-- A raw graph with a repeated node id. -/
def c4dup : RawGraph :=
  { nodes := [
      { id := "x", uid := Option.some "u1", type := Option.some "in" },
      { id := "x", uid := Option.some "u2", type := Option.some "compute" },
      { id := "o", uid := Option.some "o", type := Option.some "out" } ],
    connections := [ { source := "x", target := "o", targetInput := "v" } ] }

/-- A raw graph with a connection to a non-existent target node. -/
def c4dangling : RawGraph :=
  { nodes := [
      { id := "a", uid := Option.some "a", type := Option.some "in" },
      { id := "o", uid := Option.some "o", type := Option.some "out" } ],
    connections := [ { source := "a", target := "ghost", targetInput := "v" } ] }

/-- A raw graph with a Conditional node that has none of its three
required slots. -/
def c4if : RawGraph :=
  { nodes := [
      { id := "c", uid := Option.some "cond1", type := Option.some "if" },
      { id := "o", uid := Option.some "o", type := Option.some "out" } ],
    connections := [ { source := "c", target := "o", targetInput := "v" } ] }

/-- A raw graph whose only connection has a non-existent source node
that survives optimization (it is retained as a connection source). -/
def c4ghostsrc : RawGraph :=
  { nodes := [ { id := "o", uid := Option.some "o", type := Option.some "out" } ],
    connections := [ { source := "ghost", target := "o", targetInput := "v" } ] }

/-- Modelled from the spec: an external registry function returning a
constant tensor. -/
def constSevenFn : NodeFn := fun _ _ _ => Except.ok (Val.np (Val.int 7))

/-- An input feeding a compute node feeding a single-slot output. -/
def c5raw : RawGraph :=
  { nodes := [
      { id := "x", uid := Option.some "x", type := Option.some "in" },
      { id := "f", uid := Option.some "cf", type := Option.some "compute" },
      { id := "res", uid := Option.some "res", type := Option.some "out" } ],
    connections := [
      { source := "x", target := "f", targetInput := "x" },
      { source := "f", target := "res", targetInput := "value" } ] }

/-- A well-formed variable group (one writer, one reader) whose writer
also has an outgoing edge. -/
def c7raw : RawGraph :=
  { nodes := [
      { id := "a", uid := Option.some "a", type := Option.some "in" },
      { id := "w", type := Option.some "variable",
        data := { label := "L", is_input := true } },
      { id := "r", type := Option.some "variable", data := { label := "L" } },
      { id := "o", uid := Option.some "o", type := Option.some "out" },
      { id := "z", uid := Option.some "z", type := Option.some "out" } ],
    connections := [
      { source := "a", target := "w", targetInput := "v" },
      { source := "w", target := "z", targetInput := "zz" },
      { source := "r", target := "o", targetInput := "c" } ] }

/-- A node kept only because it is a connection source: its sole
connection targets a node that dead-code elimination drops. -/
def c8raw : RawGraph :=
  { nodes := [
      { id := "n", uid := Option.some "n", type := Option.some "compute" },
      { id := "d", uid := Option.some "d", type := Option.some "compute" },
      { id := "o", uid := Option.some "o", type := Option.some "out" } ],
    connections := [ { source := "n", target := "d", targetInput := "x" } ] }

/-- A one-input one-output graph. -/
def c9raw : RawGraph :=
  { nodes := [
      { id := "i", uid := Option.some "i", type := Option.some "in" },
      { id := "o", uid := Option.some "o", type := Option.some "out" } ],
    connections := [ { source := "i", target := "o", targetInput := "v" } ] }

/- ------------------------------------------------------------------ -/
/- C2, C3: concrete evaluations of the code                            -/
/- ------------------------------------------------------------------ -/

/-- C2: on a graph with a compute cycle, the Kahn phase schedules no
node, yet graph construction succeeds and the schedule contains every
node in declaration order — the permissive fallback runs and no
CycleError (no error at all) is raised at compile time, contradicting
the claimed fatal-CycleError policy. -/
theorem cycle_fallback_schedules_all_nodes :
    (buildGraph c2raw).map
        (fun g => (g.sort, alKeys g.nodes, kahnPhase (alKeys g.nodes) g.connections))
      = Except.ok (["m", "n", "o2"], ["m", "n", "o2"], Except.ok []) := by
  rfl

/-- C3: compiling the a, b -> add -> result graph and executing it with
a = 2 and b = 3 returns the bundle mapping result to None, not to 5:
the add node's value is registered under "add:default" while the output
node looks up the bare key "add" and results.get silently yields None. -/
theorem add_pipeline_returns_none :
    executeRaw [("add", addFn)] c3raw [("a", Val.int 2), ("b", Val.int 3)]
      = Except.ok [("result", Val.none)] := by
  rfl

/- ------------------------------------------------------------------ -/
/- C4: malformed inputs construct successfully                         -/
/- ------------------------------------------------------------------ -/

/-- C4 counterexample: a raw description with a repeated node id
constructs a Graph successfully (the later node silently overwrites the
earlier one) instead of failing with MalformedGraphError. -/
theorem duplicate_id_graph_builds :
    (buildGraph c4dup).map
        (fun g => (alKeys g.nodes, g.nodes.map (fun p => p.2.uid), g.sort))
      = Except.ok (["x", "o"], [Option.some "u2", Option.some "o"], ["x", "o"]) := by
  rfl

/-- C4 amended: graph construction does not fail on any of the three
malformed inputs — a repeated id resolves to the last declaration, a
connection to a non-existent target is silently dropped by the
optimizer, and a Conditional node without its three slots builds like
any other node; validate_connections, which construction never calls,
merely returns error strings (here for a surviving dangling source)
without raising. -/
theorem malformed_inputs_build_and_validate :
    (buildGraph c4dup).map (fun g => g.nodes.map (fun p => p.2.uid))
        = Except.ok [Option.some "u2", Option.some "o"]
    ∧ (buildGraph c4dangling).map (fun g => (alKeys g.nodes, g.connections, g.sort))
        = Except.ok (["a", "o"], [], ["a", "o"])
    ∧ (buildGraph c4if).map (fun g => (alKeys g.nodes, g.sort))
        = Except.ok (["c", "o"], ["c", "o"])
    ∧ (buildGraph c4ghostsrc).map (fun g => (g.connections, validateConnections g))
        = Except.ok ([("o", [("v", "ghost")])],
                     ["source node ghost does not exist"]) := by
  exact ⟨rfl, rfl, rfl, rfl⟩

/- ------------------------------------------------------------------ -/
/- C5, C6, C7, C8: counterexamples                                     -/
/- ------------------------------------------------------------------ -/

/-- C5 counterexample: an Output node whose single slot has no value in
the port-value map (its compute producer registered under "f:default",
not "f") makes execution return the bundle mapping the node's uid to
None — a result is produced and no MissingValueError is raised. -/
theorem unresolved_output_slot_yields_none :
    executeRaw [("cf", constSevenFn)] c5raw [("x", Val.int 1)]
      = Except.ok [("res", Val.none)] := by
  rfl

/-- C6 counterexample: in the optimized cyclic graph c6raw the
connection q -> p exists, yet in the schedule produced by topological
sorting (the fallback appends the unscheduled cycle in declaration
order) q does not precede p. -/
theorem cycle_schedule_violates_edge_order :
    (buildGraph c6raw).map
        (fun g => (g.sort, alGet (alGetD g.connections "p" []) "y"))
      = Except.ok (["p", "q", "o"], Option.some "q")
    ∧ ¬ PrecedesIn ["p", "q", "o"] "q" "p" := by
  exact ⟨rfl, by decide⟩

/-- C7 counterexample: a variable group with exactly one writer and one
reader whose writer has an outgoing edge: after optimization the writer
w (a Variable-kind node) is still in the node set and the original
edges a -> w and w -> z touching the group survive, so a Variable node
does reach the graph the Compiler sees. -/
theorem variable_writer_survives_optimization :
    (optimizeGraph c7raw).nodes.map (fun n => (n.id, n.type))
        = [("a", Option.some "in"), ("w", Option.some "variable"),
           ("o", Option.some "out"), ("z", Option.some "out")]
    ∧ (optimizeGraph c7raw).connections
        = [{ source := "a", target := "w", targetInput := "v" },
           { source := "w", target := "z", targetInput := "zz" },
           { source := "a", target := "o", targetInput := "c" }] := by
  exact ⟨rfl, rfl⟩

/-- C8 counterexample: the optimizer is not idempotent. In c8raw the
node n is retained by the first run only because it is the source of a
connection whose target d is dropped; the connection is then dropped
with it, so the second run no longer retains n. -/
theorem optimizer_not_idempotent :
    (optimizeGraph c8raw).nodes.map (fun n => n.id) = ["n", "o"]
    ∧ (optimizeGraph (optimizeGraph c8raw)).nodes.map (fun n => n.id) = ["o"]
    ∧ optimizeGraph (optimizeGraph c8raw) ≠ optimizeGraph c8raw := by
  refine ⟨rfl, rfl, fun h => ?_⟩
  have := congrArg (fun g => g.nodes.map (fun n => n.id)) h
  simp only at this
  exact absurd this (by decide)

/- ------------------------------------------------------------------ -/
/- Association-list lemmas                                             -/
/- ------------------------------------------------------------------ -/

theorem alGet_cons {α : Type} (p : String × α) (ps : AL α) (k : String) :
    alGet (p :: ps) k = if p.1 == k then Option.some p.2 else alGet ps k := by
  by_cases h : p.1 == k <;> simp [alGet, List.find?, h]

theorem alGet_upsert_self {α : Type} (m : AL α) (k : String) (v : α) :
    alGet (alUpsert m k v) k = Option.some v := by
  induction m with
  | nil => simp [alUpsert, alGet, List.find?]
  | cons p ps ih =>
    by_cases h : p.1 == k
    · simp [alUpsert, h, alGet_cons]
    · simp [alUpsert, h, alGet_cons, ih]

theorem alGet_upsert_ne {α : Type} (m : AL α) (k k' : String) (v : α)
    (h : k' ≠ k) : alGet (alUpsert m k v) k' = alGet m k' := by
  induction m with
  | nil =>
    simp [alUpsert, alGet_cons, alGet]
    intro he
    exact absurd (by simpa using he.symm) h
  | cons p ps ih =>
    by_cases hp : p.1 == k
    · have hpe : p.1 = k := by simpa using hp
      have h1 : ¬ (k == k') := by
        simp only [beq_iff_eq]
        exact fun he => h he.symm
      have h2 : ¬ (p.1 == k') := by
        simp only [beq_iff_eq, hpe]
        exact fun he => h he.symm
      simp [alUpsert, hp, alGet_cons, h1, h2]
    · simp [alUpsert, hp, alGet_cons, ih]

theorem mem_of_mem_alUpsert {α : Type} (m : AL α) (k : String) (v : α)
    (p : String × α) (h : p ∈ alUpsert m k v) : p ∈ m ∨ p = (k, v) := by
  induction m with
  | nil => simp [alUpsert] at h; right; exact h
  | cons q qs ih =>
    by_cases hq : q.1 == k
    · simp only [alUpsert, hq, if_pos] at h
      rcases List.mem_cons.mp h with h | h
      · right; exact h
      · left; exact List.mem_cons_of_mem _ h
    · simp only [alUpsert, hq] at h
      simp only [Bool.false_eq_true, if_false] at h
      rcases List.mem_cons.mp h with h | h
      · left; exact h ▸ List.mem_cons_self _ _
      · rcases ih h with h | h
        · left; exact List.mem_cons_of_mem _ h
        · right; exact h

theorem mem_alKeys_alUpsert {α : Type} (m : AL α) (k : String) (v : α)
    (a : String) : a ∈ alKeys (alUpsert m k v) ↔ a ∈ alKeys m ∨ a = k := by
  induction m with
  | nil => simp [alUpsert, alKeys]
  | cons p ps ih =>
    by_cases hp : p.1 == k
    · have hpe : p.1 = k := by simpa using hp
      rw [show alUpsert (p :: ps) k v = (k, v) :: ps by simp [alUpsert, hp]]
      simp only [alKeys, List.map_cons, List.mem_cons, hpe]
      tauto
    · simp only [alUpsert, hp, Bool.false_eq_true, if_false]
      simp only [alKeys, List.map_cons, List.mem_cons] at ih ⊢
      rw [ih]
      tauto

theorem alKeys_alUpsert_of_mem {α : Type} (m : AL α) (k : String) (v : α)
    (h : k ∈ alKeys m) : alKeys (alUpsert m k v) = alKeys m := by
  induction m with
  | nil => simp [alKeys] at h
  | cons p ps ih =>
    by_cases hp : p.1 == k
    · have : p.1 = k := by simpa using hp
      simp [alUpsert, hp, alKeys, this]
    · have hpk : p.1 ≠ k := by simpa using hp
      simp only [alKeys, List.map_cons, List.mem_cons] at h
      rcases h with h | h
      · exact absurd h.symm hpk
      · have hih := ih h
        simp only [alKeys] at hih
        simp [alUpsert, hp, alKeys, hih]

theorem alKeys_alUpsert_nodup {α : Type} (m : AL α) (k : String) (v : α)
    (h : (alKeys m).Nodup) : (alKeys (alUpsert m k v)).Nodup := by
  induction m with
  | nil => simp [alUpsert, alKeys]
  | cons p ps ih =>
    by_cases hp : p.1 == k
    · have hpe : p.1 = k := by simpa using hp
      simp only [alKeys, List.map_cons, List.nodup_cons] at h
      simp only [alUpsert, hp, if_pos, alKeys, List.map_cons, List.nodup_cons]
      exact ⟨hpe ▸ h.1, h.2⟩
    · simp only [alKeys, List.map_cons, List.nodup_cons] at h
      simp only [alUpsert, hp, Bool.false_eq_true, if_false, alKeys,
        List.map_cons, List.nodup_cons]
      refine ⟨fun hmem => ?_, ih h.2⟩
      rcases (mem_alKeys_alUpsert ps k v p.1).mp hmem with hm | hm
      · exact h.1 hm
      · exact absurd hm (by simpa using hp)

theorem alGet_mem {α : Type} {m : AL α} {k : String} {v : α}
    (h : alGet m k = Option.some v) : (k, v) ∈ m := by
  induction m with
  | nil => simp [alGet, List.find?] at h
  | cons p ps ih =>
    rw [alGet_cons] at h
    by_cases hp : p.1 == k
    · simp only [hp, if_pos, Option.some_inj] at h
      have hpe : p.1 = k := by simpa using hp
      obtain ⟨a, b⟩ := p
      simp only at hpe h
      subst hpe
      subst h
      exact List.mem_cons_self _ _
    · simp only [hp, Bool.false_eq_true, if_false] at h
      exact List.mem_cons_of_mem _ (ih h)

theorem alGet_isSome_of_mem_keys {α : Type} {m : AL α} {k : String}
    (h : k ∈ alKeys m) : (alGet m k).isSome := by
  induction m with
  | nil => simp [alKeys] at h
  | cons p ps ih =>
    rw [alGet_cons]
    by_cases hp : p.1 == k
    · simp [hp]
    · simp only [alKeys, List.map_cons, List.mem_cons] at h
      rcases h with h | h
      · exact absurd h.symm (by simpa using hp)
      · simpa [hp] using ih h

theorem alGet_none_of_not_mem_keys {α : Type} {m : AL α} {k : String}
    (h : k ∉ alKeys m) : alGet m k = Option.none := by
  cases hv : alGet m k with
  | none => rfl
  | some v =>
    exact absurd (List.mem_map_of_mem (fun p => p.1) (alGet_mem hv)) h

theorem alGet_map_const (ids : List String) (c : Int) (n : String) :
    alGet (ids.map (fun i => (i, c))) n
      = if n ∈ ids then Option.some c else Option.none := by
  induction ids with
  | nil => simp [alGet, List.find?]
  | cons i rest ih =>
    rw [List.map_cons, alGet_cons]
    by_cases hi : i = n
    · simp [hi]
    · have h1 : ¬ (i == n) := by simpa using hi
      have h2 : ¬ n = i := fun he => hi he.symm
      simp [h1, ih, hi, h2]

theorem alKeys_map_const (ids : List String) (c : Int) :
    alKeys (ids.map (fun i => (i, c))) = ids := by
  induction ids with
  | nil => rfl
  | cons i rest ih => simp [alKeys] at ih ⊢; exact ih

theorem alGetD_alPush_self {α : Type} (m : AL (List α)) (k : String) (v : α) :
    alGetD (alPush m k v) k [] = alGetD m k [] ++ [v] := by
  simp [alPush, alGetD, alGet_upsert_self]

theorem alGetD_alPush_ne {α : Type} (m : AL (List α)) (k k' : String) (v : α)
    (h : k' ≠ k) : alGetD (alPush m k v) k' [] = alGetD m k' [] := by
  simp [alPush, alGetD, alGet_upsert_ne _ _ _ _ h]

theorem nodup_append_singleton {α : Type} (l : List α) (a : α) :
    (l ++ [a]).Nodup ↔ l.Nodup ∧ a ∉ l := by
  simp [List.nodup_append]

theorem append_singleton_eq_split {α : Type} (l : List α) (x : α)
    (a1 : List α) (t : α) (a2 : List α) (h : l ++ [x] = a1 ++ t :: a2) :
    (a1 = l ∧ t = x ∧ a2 = []) ∨ ∃ a2', a2 = a2' ++ [x] ∧ l = a1 ++ t :: a2' := by
  rcases List.eq_nil_or_concat a2 with rfl | ⟨a2', y, rfl⟩
  · left
    have := List.append_inj' h rfl
    obtain ⟨h1, h2⟩ := this
    exact ⟨h1.symm, by simpa using h2.symm, rfl⟩
  · right
    rw [List.concat_eq_append] at h
    rw [show a1 ++ t :: (a2' ++ [y]) = (a1 ++ t :: a2') ++ [y] by simp] at h
    have := List.append_inj' h rfl
    obtain ⟨h1, h2⟩ := this
    have hy : x = y := by simpa using h2
    refine ⟨a2', ?_, h1⟩
    rw [List.concat_eq_append, hy]

/- ------------------------------------------------------------------ -/
/- Remaining in-degree: the counting frame of the Kahn proofs          -/
/- ------------------------------------------------------------------ -/

/-- The number of dependency-graph edges into t whose source has not
yet been popped: the ghost quantity tracked through Kahn's loop. -/
def remIndeg (adj : AL (List String)) (popped : List String) (t : String) : Nat :=
  match adj with
  | [] => 0
  | p :: rest =>
    (if p.1 ∈ popped then 0 else p.2.count t) + remIndeg rest popped t

theorem remIndeg_popped_irrel (adj : AL (List String)) (popped : List String)
    (x t : String) (hx : x ∉ alKeys adj) :
    remIndeg adj (popped ++ [x]) t = remIndeg adj popped t := by
  induction adj with
  | nil => rfl
  | cons p rest ih =>
    simp only [alKeys, List.map_cons, List.mem_cons] at hx
    push_neg at hx
    have hne : p.1 ≠ x := fun he => hx.1 he.symm
    have hmem : p.1 ∈ popped ++ [x] ↔ p.1 ∈ popped := by
      simp [List.mem_append, hne]
    simp only [remIndeg, ih hx.2, propext hmem]

theorem remIndeg_pop (adj : AL (List String)) (popped : List String)
    (x t : String) (hnd : (alKeys adj).Nodup) (hx : x ∉ popped) :
    remIndeg adj popped t
      = remIndeg adj (popped ++ [x]) t + (alGetD adj x []).count t := by
  induction adj with
  | nil => simp [remIndeg, alGetD, alGet, List.find?]
  | cons p rest ih =>
    simp only [alKeys, List.map_cons, List.nodup_cons] at hnd
    by_cases hpx : p.1 = x
    · have hgd : alGetD (p :: rest) x [] = p.2 := by
        simp [alGetD, alGet_cons, hpx]
      have hrest : remIndeg rest (popped ++ [x]) t = remIndeg rest popped t :=
        remIndeg_popped_irrel rest popped x t (hpx ▸ hnd.1)
      have hmem : p.1 ∈ popped ++ [x] := by simp [hpx]
      simp only [remIndeg, hgd, hrest, if_neg (hpx ▸ hx), if_pos hmem]
      try omega
    · have hgd : alGetD (p :: rest) x [] = alGetD rest x [] := by
        have : ¬ (p.1 == x) := by simpa using hpx
        simp [alGetD, alGet_cons, this]
      have hmem : p.1 ∈ popped ++ [x] ↔ p.1 ∈ popped := by
        simp [List.mem_append, hpx]
      simp only [remIndeg, hgd]
      rw [ih hnd.2]
      simp only [propext hmem]
      omega

theorem remIndeg_alPush (adj : AL (List String)) (k v t : String) :
    remIndeg (alPush adj k v) [] t
      = remIndeg adj [] t + (if v = t then 1 else 0) := by
  induction adj with
  | nil =>
    by_cases hv : v = t
    · simp [alPush, alUpsert, alGetD, alGet, List.find?, remIndeg, hv]
    · have hvb : ¬ (v == t) := by simpa using hv
      have htv : ¬ t = v := fun he => hv he.symm
      simp [alPush, alUpsert, alGetD, alGet, List.find?, remIndeg, hv, hvb,
        List.count_eq_zero, htv]
  | cons p rest ih =>
    by_cases hp : p.1 == k
    · have hup : alPush (p :: rest) k v = (k, p.2 ++ [v]) :: rest := by
        simp [alPush, alUpsert, hp, alGetD, alGet_cons]
      have hcv : List.count t [v] = if v = t then 1 else 0 := by
        by_cases hv : v = t
        · simp [hv]
        · have hvb : ¬ (v == t) := by simpa using hv
          simp [List.count_singleton, hv, hvb]
      rw [hup]
      simp [remIndeg, List.count_append, hcv] <;> omega
    · have hup : alPush (p :: rest) k v = p :: alPush rest k v := by
        have hgd : alGetD (p :: rest) k [] = alGetD rest k [] := by
          simp [alGetD, alGet_cons, hp]
        simp [alPush, alUpsert, hp, hgd]
      rw [hup]
      simp [remIndeg, ih] <;> omega

theorem remIndeg_zero_iff (adj : AL (List String)) (popped : List String)
    (t : String) :
    remIndeg adj popped t = 0
      ↔ ∀ p ∈ adj, p.1 ∉ popped → p.2.count t = 0 := by
  induction adj with
  | nil => simp [remIndeg]
  | cons p rest ih =>
    simp only [remIndeg, Nat.add_eq_zero, List.mem_cons, ih]
    constructor
    · rintro ⟨h1, h2⟩ q hq hnp
      rcases hq with rfl | hq
      · by_cases hpop : q.1 ∈ popped
        · exact absurd hpop hnp
        · simpa [hpop] using h1
      · exact h2 q hq hnp
    · intro h
      constructor
      · by_cases hpop : p.1 ∈ popped
        · simp [hpop]
        · simpa [hpop] using h p (Or.inl rfl) hpop
      · exact fun q hq hnp => h q (Or.inr hq) hnp

theorem source_mem_of_remIndeg_zero (adj : AL (List String))
    (popped : List String) (t s : String)
    (h : remIndeg adj popped t = 0) (he : t ∈ alGetD adj s []) : s ∈ popped := by
  by_contra hs
  cases hg : alGet adj s with
  | none => simp [alGetD, hg] at he
  | some l =>
    have hmem : (s, l) ∈ adj := alGet_mem hg
    have hcount := (remIndeg_zero_iff adj popped t).mp h (s, l) hmem hs
    rw [alGetD, hg] at he
    simp only [Option.getD_some] at he
    exact absurd hcount (by simpa [List.count_eq_zero] using he)

/- ------------------------------------------------------------------ -/
/- Kahn loop invariants                                                -/
/- ------------------------------------------------------------------ -/

theorem processNeighbors_spec (ids : List String) (adj : AL (List String))
    (acc : List String) (x : String) :
    ∀ (L : List String), ∀ (P q : List String) (d : AL Int)
      (q2 : List String) (d2 : AL Int),
    processNeighbors L q d = Except.ok (q2, d2) →
    (∀ t ∈ L, t ∈ ids) →
    (acc ++ x :: q).Nodup →
    (∀ n ∈ acc ++ x :: q, n ∈ ids) →
    (∀ n ∈ ids, alGet d n
        = Option.some ((remIndeg adj acc n : Int) - (P.count n : Int))) →
    alKeys d = ids →
    (∀ n ∈ acc ++ x :: q, (remIndeg adj acc n : Int) - (P.count n : Int) ≤ 0) →
    (acc ++ x :: q2).Nodup
    ∧ (∀ n ∈ acc ++ x :: q2, n ∈ ids)
    ∧ (∀ n ∈ ids, alGet d2 n
        = Option.some ((remIndeg adj acc n : Int) - ((P ++ L).count n : Int)))
    ∧ alKeys d2 = ids
    ∧ (∀ n ∈ acc ++ x :: q2,
        (remIndeg adj acc n : Int) - ((P ++ L).count n : Int) ≤ 0) := by
  intro L
  induction L with
  | nil =>
    intro P q d q2 d2 hok hL hnd hsub hd hk hbound
    simp only [processNeighbors, Except.ok.injEq, Prod.mk.injEq] at hok
    obtain ⟨rfl, rfl⟩ := hok
    simp only [List.append_nil]
    exact ⟨hnd, hsub, hd, hk, hbound⟩
  | cons t ts ih =>
    intro P q d q2 d2 hok hL hnd hsub hd hk hbound
    have htids : t ∈ ids := hL t (List.mem_cons_self _ _)
    cases hg : alGet d t with
    | none =>
      simp only [processNeighbors, hg] at hok
      exact Except.noConfusion hok
    | some v =>
      simp only [processNeighbors, hg] at hok
      have hv : v = (remIndeg adj acc t : Int) - (P.count t : Int) := by
        have hdt := hd t htids
        rw [hg] at hdt
        exact Option.some_inj.mp hdt
      have hLts : ∀ u ∈ ts, u ∈ ids := fun u hu => hL u (List.mem_cons_of_mem _ hu)
      have hd2 : ∀ n ∈ ids, alGet (alUpsert d t (v - 1)) n
          = Option.some ((remIndeg adj acc n : Int)
              - (((P ++ [t]).count n : Nat) : Int)) := by
        intro n hn
        by_cases hnt : n = t
        · subst hnt
          rw [alGet_upsert_self]
          have hcnt : (P ++ [n]).count n = P.count n + 1 := by
            simp [List.count_append]
          rw [hcnt, hv]
          congr 1
          push_cast
          omega
        · rw [alGet_upsert_ne _ _ _ _ hnt, hd n hn]
          have hcnt : (P ++ [t]).count n = P.count n := by
            simp [List.count_append, List.count_singleton, hnt,
              fun h : t = n => hnt h.symm]
          rw [hcnt]
      have hk2 : alKeys (alUpsert d t (v - 1)) = ids := by
        rw [alKeys_alUpsert_of_mem _ _ _ (hk ▸ htids), hk]
      have hcount_le : ∀ n : String, (P.count n : Int) ≤ ((P ++ [t]).count n : Int) := by
        intro n
        simp only [List.count_append]
        push_cast
        omega
      by_cases henq : v - 1 = 0
      · -- the neighbor's in-degree reached zero: it is enqueued
        have hnot : t ∉ acc ++ x :: q := by
          intro hmem
          have := hbound t hmem
          omega
        have hnd2 : (acc ++ x :: (q ++ [t])).Nodup := by
          have hre : acc ++ x :: (q ++ [t]) = (acc ++ x :: q) ++ [t] := by simp
          rw [hre]
          exact (nodup_append_singleton _ _).mpr ⟨hnd, hnot⟩
        have hsub2 : ∀ n ∈ acc ++ x :: (q ++ [t]), n ∈ ids := by
          intro n hn
          have hre : acc ++ x :: (q ++ [t]) = (acc ++ x :: q) ++ [t] := by simp
          rw [hre] at hn
          rcases List.mem_append.mp hn with hn | hn
          · exact hsub n hn
          · rw [List.mem_singleton.mp hn]; exact htids
        have hbound2 : ∀ n ∈ acc ++ x :: (q ++ [t]),
            (remIndeg adj acc n : Int) - (((P ++ [t]).count n : Nat) : Int) ≤ 0 := by
          intro n hn
          have hre : acc ++ x :: (q ++ [t]) = (acc ++ x :: q) ++ [t] := by simp
          rw [hre] at hn
          rcases List.mem_append.mp hn with hn | hn
          · have := hbound n hn
            have := hcount_le n
            omega
          · rw [List.mem_singleton.mp hn]
            have hcnt : (P ++ [t]).count t = P.count t + 1 := by
              simp [List.count_append]
            rw [hcnt]
            push_cast
            omega
        have hres := ih (P ++ [t]) (q ++ [t]) (alUpsert d t (v - 1)) q2 d2
          (by simpa [henq] using hok) hLts hnd2 hsub2 hd2 hk2 hbound2
        have hre2 : (P ++ [t]) ++ ts = P ++ t :: ts := by simp
        rw [hre2] at hres
        exact hres
      · -- the neighbor stays out of the queue
        have hbound2 : ∀ n ∈ acc ++ x :: q,
            (remIndeg adj acc n : Int) - (((P ++ [t]).count n : Nat) : Int) ≤ 0 := by
          intro n hn
          have := hbound n hn
          have := hcount_le n
          omega
        have hres := ih (P ++ [t]) q (alUpsert d t (v - 1)) q2 d2
          (by simpa [henq] using hok) hLts hnd hsub hd2 hk2 hbound2
        have hre2 : (P ++ [t]) ++ ts = P ++ t :: ts := by simp
        rw [hre2] at hres
        exact hres

theorem kahnLoop_spec (ids : List String) (adj : AL (List String))
    (hadjKN : (alKeys adj).Nodup)
    (hadjE : ∀ p ∈ adj, ∀ u ∈ p.2, u ∈ ids) :
    ∀ (fuel : Nat) (q : List String) (d : AL Int) (acc res : List String),
    kahnLoop adj fuel q d acc = Except.ok res →
    (acc ++ q).Nodup →
    (∀ n ∈ acc ++ q, n ∈ ids) →
    (∀ n ∈ ids, alGet d n = Option.some ((remIndeg adj acc n : Int))) →
    alKeys d = ids →
    (∀ n ∈ q, remIndeg adj acc n = 0) →
    (∀ n ∈ acc, remIndeg adj acc n = 0) →
    (∀ t a1 a2, acc = a1 ++ t :: a2 → ∀ s, t ∈ alGetD adj s [] → s ∈ a1) →
    res.Nodup ∧ (∀ n ∈ res, n ∈ ids)
    ∧ (∀ t a1 a2, res = a1 ++ t :: a2 → ∀ s, t ∈ alGetD adj s [] → s ∈ a1) := by
  intro fuel
  induction fuel with
  | zero =>
    intro q d acc res hok hnd hsub hd hk hqz haz hprec
    simp only [kahnLoop, Except.ok.injEq] at hok
    subst hok
    exact ⟨(List.nodup_append.mp hnd).1,
      fun n hn => hsub n (List.mem_append.mpr (Or.inl hn)), hprec⟩
  | succ fuel ih =>
    intro q d acc res hok hnd hsub hd hk hqz haz hprec
    cases q with
    | nil =>
      simp only [kahnLoop, Except.ok.injEq] at hok
      subst hok
      exact ⟨by simpa using hnd, fun n hn => hsub n (by simpa using hn), hprec⟩
    | cons x qr =>
      simp only [kahnLoop] at hok
      cases hpn : processNeighbors (alGetD adj x []) qr d with
      | error e =>
        rw [hpn] at hok
        exact Except.noConfusion hok
      | ok st =>
        obtain ⟨q2, d2⟩ := st
        rw [hpn] at hok
        -- the invariants fed into the neighbor-processing lemma
        have hL : ∀ u ∈ alGetD adj x [], u ∈ ids := by
          intro u hu
          cases hga : alGet adj x with
          | none => rw [alGetD, hga] at hu; simp at hu
          | some l =>
            rw [alGetD, hga] at hu
            exact hadjE (x, l) (alGet_mem hga) u (by simpa using hu)
        have hd0 : ∀ n ∈ ids, alGet d n
            = Option.some ((remIndeg adj acc n : Int)
                - ((([] : List String).count n : Nat) : Int)) := by
          intro n hn
          simpa using hd n hn
        have hbound0 : ∀ n ∈ acc ++ x :: qr,
            (remIndeg adj acc n : Int)
              - ((([] : List String).count n : Nat) : Int) ≤ 0 := by
          intro n hn
          rcases List.mem_append.mp hn with hn | hn
          · have := haz n hn; simp [this]
          · rcases List.mem_cons.mp hn with rfl | hn
            · have := hqz n (List.mem_cons_self _ _); simp [this]
            · have := hqz n (List.mem_cons_of_mem _ hn); simp [this]
        obtain ⟨hnd2, hsub2, hd2, hk2, hbound2⟩ :=
          processNeighbors_spec ids adj acc x (alGetD adj x []) [] qr d q2 d2
            hpn hL hnd hsub hd0 hk hbound0
        -- move to the frame where x has been popped
        have hxacc : x ∉ acc := by
          have := (List.nodup_append.mp hnd).2.2
          exact fun hin => this hin (List.mem_cons_self _ _)
        have hREM : ∀ n : String,
            (remIndeg adj acc n : Int) - (((alGetD adj x []).count n : Nat) : Int)
              = (remIndeg adj (acc ++ [x]) n : Int) := by
          intro n
          have := remIndeg_pop adj acc x n hadjKN hxacc
          omega
        have hre : acc ++ x :: q2 = (acc ++ [x]) ++ q2 := by simp
        have hnd3 : ((acc ++ [x]) ++ q2).Nodup := hre ▸ hnd2
        have hsub3 : ∀ n ∈ (acc ++ [x]) ++ q2, n ∈ ids := fun n hn =>
          hsub2 n (hre ▸ hn)
        have hd3 : ∀ n ∈ ids, alGet d2 n
            = Option.some ((remIndeg adj (acc ++ [x]) n : Int)) := by
          intro n hn
          rw [hd2 n hn]
          congr 1
          rw [← hREM n]
          simp
        have hbound3 : ∀ n ∈ (acc ++ [x]) ++ q2,
            (remIndeg adj (acc ++ [x]) n : Int) ≤ 0 := by
          intro n hn
          have := hbound2 n (hre ▸ hn)
          rw [← hREM n]
          simpa using this
        have hqz3 : ∀ n ∈ q2, remIndeg adj (acc ++ [x]) n = 0 := by
          intro n hn
          have := hbound3 n (List.mem_append.mpr (Or.inr hn))
          omega
        have haz3 : ∀ n ∈ acc ++ [x], remIndeg adj (acc ++ [x]) n = 0 := by
          intro n hn
          have := hbound3 n (List.mem_append.mpr (Or.inl hn))
          omega
        have hprec3 : ∀ t a1 a2, acc ++ [x] = a1 ++ t :: a2 →
            ∀ s, t ∈ alGetD adj s [] → s ∈ a1 := by
          intro t a1 a2 hsplit s hedge
          rcases append_singleton_eq_split acc x a1 t a2 hsplit with
            ⟨rfl, rfl, rfl⟩ | ⟨a2', _, hacc⟩
          · exact source_mem_of_remIndeg_zero adj a1 t s
              (hqz t (List.mem_cons_self _ _)) hedge
          · exact hprec t a1 a2' hacc s hedge
        exact ih q2 d2 (acc ++ [x]) res hok hnd3 hsub3 hd3 hk2 hqz3 haz3 hprec3

theorem processNeighbors_ok :
    ∀ (L q : List String) (d : AL Int),
    (∀ t ∈ L, t ∈ alKeys d) →
    ∃ q2 d2, processNeighbors L q d = Except.ok (q2, d2)
      ∧ alKeys d2 = alKeys d := by
  intro L
  induction L with
  | nil => exact fun q d _ => ⟨q, d, rfl, rfl⟩
  | cons t ts ih =>
    intro q d hL
    have ht := hL t (List.mem_cons_self _ _)
    cases hg : alGet d t with
    | none =>
      have := alGet_isSome_of_mem_keys ht
      rw [hg] at this
      exact absurd this (by simp)
    | some v =>
      have hk2 : alKeys (alUpsert d t (v - 1)) = alKeys d :=
        alKeys_alUpsert_of_mem _ _ _ ht
      obtain ⟨q2, d2, hok, hkk⟩ :=
        ih (if v - 1 = 0 then q ++ [t] else q) (alUpsert d t (v - 1))
          (fun u hu => hk2 ▸ hL u (List.mem_cons_of_mem _ hu))
      refine ⟨q2, d2, ?_, by rw [hkk, hk2]⟩
      simp only [processNeighbors, hg]
      exact hok

theorem kahnLoop_ok (adj : AL (List String)) :
    ∀ (fuel : Nat) (q : List String) (d : AL Int) (acc : List String),
    (∀ p ∈ adj, ∀ u ∈ p.2, u ∈ alKeys d) →
    ∃ res, kahnLoop adj fuel q d acc = Except.ok res := by
  intro fuel
  induction fuel with
  | zero => exact fun q d acc _ => ⟨acc, rfl⟩
  | succ fuel ih =>
    intro q d acc hadj
    cases q with
    | nil => exact ⟨acc, rfl⟩
    | cons x qr =>
      have hL : ∀ t ∈ alGetD adj x [], t ∈ alKeys d := by
        intro t ht
        cases hga : alGet adj x with
        | none => rw [alGetD, hga] at ht; simp at ht
        | some l =>
          rw [alGetD, hga] at ht
          exact hadj (x, l) (alGet_mem hga) t (by simpa using ht)
      obtain ⟨q2, d2, hok, hkk⟩ := processNeighbors_ok _ qr d hL
      obtain ⟨res, hres⟩ := ih q2 d2 (acc ++ [x])
        (fun p hp u hu => hkk ▸ hadj p hp u hu)
      refine ⟨res, ?_⟩
      simp only [kahnLoop, hok]
      exact hres

theorem mem_alKeys_of_alGet {α : Type} {m : AL α} {k : String} {v : α}
    (h : alGet m k = Option.some v) : k ∈ alKeys m :=
  List.mem_map_of_mem (fun p => p.1) (alGet_mem h)

theorem buildDepsStep_spec (ids : List String) (target source : String)
    (st st2 : AL Int × AL (List String))
    (hok : buildDepsStep ids st target source = Except.ok st2)
    (h1 : ∀ n ∈ ids, alGet st.1 n = Option.some ((remIndeg st.2 [] n : Int)))
    (h2 : alKeys st.1 = ids)
    (h3 : ∀ p ∈ st.2, p.1 ∈ ids)
    (h4 : (alKeys st.2).Nodup)
    (h5 : ∀ p ∈ st.2, ∀ u ∈ p.2, u ∈ ids) :
    ((∀ n ∈ ids, alGet st2.1 n = Option.some ((remIndeg st2.2 [] n : Int)))
      ∧ alKeys st2.1 = ids
      ∧ (∀ p ∈ st2.2, p.1 ∈ ids)
      ∧ (alKeys st2.2).Nodup
      ∧ (∀ p ∈ st2.2, ∀ u ∈ p.2, u ∈ ids))
    ∧ (∀ s u, u ∈ alGetD st.2 s [] → u ∈ alGetD st2.2 s [])
    ∧ ((splitPortId source).1 ∈ ids →
        target ∈ alGetD st2.2 (splitPortId source).1 [] ∧ target ∈ ids) := by
  by_cases hsid : (splitPortId source).1 ∈ ids
  · simp only [buildDepsStep, if_pos hsid] at hok
    cases hg : alGet st.1 target with
    | none =>
      rw [hg] at hok
      exact Except.noConfusion hok
    | some dv =>
      rw [hg] at hok
      have hst2 : st2 = (alUpsert st.1 target (dv + 1),
          alPush st.2 (splitPortId source).1 target) :=
        (Except.ok.inj hok).symm
      subst hst2
      have htmem : target ∈ alKeys st.1 := mem_alKeys_of_alGet hg
      have htids : target ∈ ids := h2 ▸ htmem
      have hdv : dv = (remIndeg st.2 [] target : Int) := by
        have := h1 target htids
        rw [hg] at this
        exact Option.some_inj.mp this
      refine ⟨⟨?_, ?_, ?_, ?_, ?_⟩, ?_, fun _ => ⟨?_, htids⟩⟩
      · intro n hn
        by_cases hnt : n = target
        · subst hnt
          rw [alGet_upsert_self, remIndeg_alPush, if_pos rfl, hdv]
          have hc : ((remIndeg st.2 [] n : Int)) + 1
              = ((remIndeg st.2 [] n + 1 : Nat) : Int) := by
            push_cast
            ring
          rw [hc]
        · rw [alGet_upsert_ne _ _ _ _ hnt, h1 n hn]
          rw [remIndeg_alPush]
          rw [if_neg (fun h : target = n => hnt h.symm)]
          simp
      · rw [alKeys_alUpsert_of_mem _ _ _ htmem, h2]
      · intro p hp
        rcases mem_of_mem_alUpsert _ _ _ _ hp with hp | hp
        · exact h3 p hp
        · rw [hp]; exact hsid
      · exact alKeys_alUpsert_nodup _ _ _ h4
      · intro p hp u hu
        rcases mem_of_mem_alUpsert _ _ _ _ hp with hp | hp
        · exact h5 p hp u hu
        · rw [hp] at hu
          simp only at hu
          rcases List.mem_append.mp hu with hu | hu
          · cases hga : alGet st.2 (splitPortId source).1 with
            | none => rw [alGetD, hga] at hu; simp at hu
            | some l =>
              rw [alGetD, hga] at hu
              exact h5 _ (alGet_mem hga) u (by simpa using hu)
          · rw [List.mem_singleton.mp hu]; exact htids
      · intro s u hu
        by_cases hs : s = (splitPortId source).1
        · subst hs
          rw [alGetD_alPush_self]
          exact List.mem_append.mpr (Or.inl hu)
        · rw [alGetD_alPush_ne _ _ _ _ hs]
          exact hu
      · rw [alGetD_alPush_self]
        exact List.mem_append.mpr (Or.inr (List.mem_singleton.mpr rfl))
  · simp only [buildDepsStep, if_neg hsid, Except.ok.injEq] at hok
    subst hok
    exact ⟨⟨h1, h2, h3, h4, h5⟩, fun _ _ hu => hu, fun h => absurd h hsid⟩

theorem buildDepsSlots_spec (ids : List String) (target : String) :
    ∀ (slots : List (String × String)) (st st2 : AL Int × AL (List String)),
    buildDepsSlots ids target slots st = Except.ok st2 →
    (∀ n ∈ ids, alGet st.1 n = Option.some ((remIndeg st.2 [] n : Int))) →
    alKeys st.1 = ids →
    (∀ p ∈ st.2, p.1 ∈ ids) →
    (alKeys st.2).Nodup →
    (∀ p ∈ st.2, ∀ u ∈ p.2, u ∈ ids) →
    ((∀ n ∈ ids, alGet st2.1 n = Option.some ((remIndeg st2.2 [] n : Int)))
      ∧ alKeys st2.1 = ids
      ∧ (∀ p ∈ st2.2, p.1 ∈ ids)
      ∧ (alKeys st2.2).Nodup
      ∧ (∀ p ∈ st2.2, ∀ u ∈ p.2, u ∈ ids))
    ∧ (∀ s u, u ∈ alGetD st.2 s [] → u ∈ alGetD st2.2 s [])
    ∧ (∀ sl ∈ slots, (splitPortId sl.2).1 ∈ ids →
        target ∈ alGetD st2.2 (splitPortId sl.2).1 [] ∧ target ∈ ids) := by
  intro slots
  induction slots with
  | nil =>
    intro st st2 hok h1 h2 h3 h4 h5
    simp only [buildDepsSlots, Except.ok.injEq] at hok
    subst hok
    exact ⟨⟨h1, h2, h3, h4, h5⟩, fun _ _ hu => hu, by simp⟩
  | cons sl rest ih =>
    intro st st2 hok h1 h2 h3 h4 h5
    simp only [buildDepsSlots] at hok
    cases hstep : buildDepsStep ids st target sl.2 with
    | error e =>
      rw [hstep] at hok
      exact Except.noConfusion hok
    | ok stm =>
      rw [hstep] at hok
      obtain ⟨⟨g1, g2, g3, g4, g5⟩, gmono, gedge⟩ :=
        buildDepsStep_spec ids target sl.2 st stm hstep h1 h2 h3 h4 h5
      obtain ⟨⟨f1, f2, f3, f4, f5⟩, fmono, fedge⟩ :=
        ih stm st2 hok g1 g2 g3 g4 g5
      refine ⟨⟨f1, f2, f3, f4, f5⟩, fun s u hu => fmono s u (gmono s u hu), ?_⟩
      intro sl2 hmem hin
      rcases List.mem_cons.mp hmem with rfl | hmem
      · obtain ⟨he, ht⟩ := gedge hin
        exact ⟨fmono _ _ he, ht⟩
      · exact fedge sl2 hmem hin

theorem buildDepsStep_mono (ids : List String) (target source : String)
    (st st2 : AL Int × AL (List String))
    (hok : buildDepsStep ids st target source = Except.ok st2) :
    ∀ s u, u ∈ alGetD st.2 s [] → u ∈ alGetD st2.2 s [] := by
  by_cases hsid : (splitPortId source).1 ∈ ids
  · simp only [buildDepsStep, if_pos hsid] at hok
    cases hg : alGet st.1 target with
    | none =>
      rw [hg] at hok
      exact Except.noConfusion hok
    | some dv =>
      rw [hg] at hok
      have hst2 : st2 = (alUpsert st.1 target (dv + 1),
          alPush st.2 (splitPortId source).1 target) :=
        (Except.ok.inj hok).symm
      subst hst2
      intro s u hu
      by_cases hs : s = (splitPortId source).1
      · subst hs
        rw [alGetD_alPush_self]
        exact List.mem_append.mpr (Or.inl hu)
      · rw [alGetD_alPush_ne _ _ _ _ hs]
        exact hu
  · simp only [buildDepsStep, if_neg hsid, Except.ok.injEq] at hok
    subst hok
    exact fun _ _ hu => hu

theorem buildDepsSlots_mono (ids : List String) (target : String) :
    ∀ (slots : List (String × String)) (st st2 : AL Int × AL (List String)),
    buildDepsSlots ids target slots st = Except.ok st2 →
    ∀ s u, u ∈ alGetD st.2 s [] → u ∈ alGetD st2.2 s [] := by
  intro slots
  induction slots with
  | nil =>
    intro st st2 hok
    simp only [buildDepsSlots, Except.ok.injEq] at hok
    subst hok
    exact fun _ _ hu => hu
  | cons sl rest ih =>
    intro st st2 hok
    simp only [buildDepsSlots] at hok
    cases hstep : buildDepsStep ids st target sl.2 with
    | error e =>
      rw [hstep] at hok
      exact Except.noConfusion hok
    | ok stm =>
      rw [hstep] at hok
      exact fun s u hu =>
        ih stm st2 hok s u (buildDepsStep_mono ids target sl.2 st stm hstep s u hu)

theorem buildDepsGo_mono (ids : List String) :
    ∀ (entries : List (String × AL String)) (st st2 : AL Int × AL (List String)),
    buildDepsGo ids entries st = Except.ok st2 →
    ∀ s u, u ∈ alGetD st.2 s [] → u ∈ alGetD st2.2 s [] := by
  intro entries
  induction entries with
  | nil =>
    intro st st2 hok
    simp only [buildDepsGo, Except.ok.injEq] at hok
    subst hok
    exact fun _ _ hu => hu
  | cons e rest ih =>
    intro st st2 hok
    simp only [buildDepsGo] at hok
    cases hstep : buildDepsSlots ids e.1 e.2 st with
    | error err =>
      rw [hstep] at hok
      exact Except.noConfusion hok
    | ok stm =>
      rw [hstep] at hok
      exact fun s u hu =>
        ih stm st2 hok s u (buildDepsSlots_mono ids e.1 e.2 st stm hstep s u hu)

theorem buildDepsGo_spec (ids : List String) :
    ∀ (entries : List (String × AL String)) (st st2 : AL Int × AL (List String)),
    buildDepsGo ids entries st = Except.ok st2 →
    (∀ n ∈ ids, alGet st.1 n = Option.some ((remIndeg st.2 [] n : Int))) →
    alKeys st.1 = ids →
    (∀ p ∈ st.2, p.1 ∈ ids) →
    (alKeys st.2).Nodup →
    (∀ p ∈ st.2, ∀ u ∈ p.2, u ∈ ids) →
    ((∀ n ∈ ids, alGet st2.1 n = Option.some ((remIndeg st2.2 [] n : Int)))
      ∧ alKeys st2.1 = ids
      ∧ (∀ p ∈ st2.2, p.1 ∈ ids)
      ∧ (alKeys st2.2).Nodup
      ∧ (∀ p ∈ st2.2, ∀ u ∈ p.2, u ∈ ids))
    ∧ (∀ e ∈ entries, ∀ sl ∈ e.2, (splitPortId sl.2).1 ∈ ids →
        e.1 ∈ alGetD st2.2 (splitPortId sl.2).1 [] ∧ e.1 ∈ ids) := by
  intro entries
  induction entries with
  | nil =>
    intro st st2 hok h1 h2 h3 h4 h5
    simp only [buildDepsGo, Except.ok.injEq] at hok
    subst hok
    exact ⟨⟨h1, h2, h3, h4, h5⟩, by simp⟩
  | cons e rest ih =>
    intro st st2 hok h1 h2 h3 h4 h5
    simp only [buildDepsGo] at hok
    cases hstep : buildDepsSlots ids e.1 e.2 st with
    | error err =>
      rw [hstep] at hok
      exact Except.noConfusion hok
    | ok stm =>
      rw [hstep] at hok
      obtain ⟨⟨g1, g2, g3, g4, g5⟩, gmono, gedge⟩ :=
        buildDepsSlots_spec ids e.1 e.2 st stm hstep h1 h2 h3 h4 h5
      obtain ⟨⟨f1, f2, f3, f4, f5⟩, fedge⟩ := ih stm st2 hok g1 g2 g3 g4 g5
      have hmono2 : ∀ s u, u ∈ alGetD stm.2 s [] → u ∈ alGetD st2.2 s [] :=
        buildDepsGo_mono ids rest stm st2 hok
      refine ⟨⟨f1, f2, f3, f4, f5⟩, ?_⟩
      intro e2 hmem sl hsl hin
      rcases List.mem_cons.mp hmem with rfl | hmem
      · obtain ⟨he, ht⟩ := gedge sl hsl hin
        exact ⟨hmono2 _ _ he, ht⟩
      · exact fedge e2 hmem sl hsl hin

theorem buildDeps_spec (ids : List String) (conns : AL (AL String))
    (d0 : AL Int) (adj : AL (List String))
    (hok : buildDeps ids conns = Except.ok (d0, adj)) :
    ((∀ n ∈ ids, alGet d0 n = Option.some ((remIndeg adj [] n : Int)))
      ∧ alKeys d0 = ids
      ∧ (∀ p ∈ adj, p.1 ∈ ids)
      ∧ (alKeys adj).Nodup
      ∧ (∀ p ∈ adj, ∀ u ∈ p.2, u ∈ ids))
    ∧ (∀ e ∈ conns, ∀ sl ∈ e.2, (splitPortId sl.2).1 ∈ ids →
        e.1 ∈ alGetD adj (splitPortId sl.2).1 [] ∧ e.1 ∈ ids) := by
  have h1 : ∀ n ∈ ids, alGet (ids.map (fun i => (i, (0 : Int)))) n
      = Option.some ((remIndeg ([] : AL (List String)) [] n : Int)) := by
    intro n hn
    rw [alGet_map_const]
    simp [hn, remIndeg]
  have h2 : alKeys (ids.map (fun i => (i, (0 : Int)))) = ids :=
    alKeys_map_const ids 0
  have := buildDepsGo_spec ids conns
    (ids.map (fun i => (i, (0 : Int))), ([] : AL (List String))) (d0, adj)
    hok h1 h2 (by simp) (by simp [alKeys]) (by simp)
  exact this

theorem buildDepsStep_ok (ids : List String) (target source : String)
    (st : AL Int × AL (List String)) (ht : target ∈ alKeys st.1) :
    ∃ st2, buildDepsStep ids st target source = Except.ok st2
      ∧ alKeys st2.1 = alKeys st.1 := by
  by_cases hsid : (splitPortId source).1 ∈ ids
  · cases hg : alGet st.1 target with
    | none =>
      have := alGet_isSome_of_mem_keys ht
      rw [hg] at this
      exact absurd this (by simp)
    | some dv =>
      refine ⟨(alUpsert st.1 target (dv + 1),
        alPush st.2 (splitPortId source).1 target), ?_, ?_⟩
      · simp only [buildDepsStep, if_pos hsid, hg]
      · exact alKeys_alUpsert_of_mem _ _ _ ht
  · exact ⟨st, by simp only [buildDepsStep, if_neg hsid], rfl⟩

theorem buildDepsSlots_ok (ids : List String) (target : String) :
    ∀ (slots : List (String × String)) (st : AL Int × AL (List String)),
    target ∈ alKeys st.1 →
    ∃ st2, buildDepsSlots ids target slots st = Except.ok st2
      ∧ alKeys st2.1 = alKeys st.1 := by
  intro slots
  induction slots with
  | nil => exact fun st _ => ⟨st, rfl, rfl⟩
  | cons sl rest ih =>
    intro st ht
    obtain ⟨stm, hstep, hkeys⟩ := buildDepsStep_ok ids target sl.2 st ht
    obtain ⟨st2, hok, hkeys2⟩ := ih stm (hkeys ▸ ht)
    refine ⟨st2, ?_, by rw [hkeys2, hkeys]⟩
    simp only [buildDepsSlots, hstep]
    exact hok

theorem buildDepsGo_ok (ids : List String) :
    ∀ (entries : List (String × AL String)) (st : AL Int × AL (List String)),
    (∀ e ∈ entries, e.1 ∈ alKeys st.1) →
    ∃ st2, buildDepsGo ids entries st = Except.ok st2
      ∧ alKeys st2.1 = alKeys st.1 := by
  intro entries
  induction entries with
  | nil => exact fun st _ => ⟨st, rfl, rfl⟩
  | cons e rest ih =>
    intro st hall
    obtain ⟨stm, hstep, hkeys⟩ :=
      buildDepsSlots_ok ids e.1 e.2 st (hall e (List.mem_cons_self _ _))
    obtain ⟨st2, hok, hkeys2⟩ := ih stm
      (fun e2 he2 => hkeys ▸ hall e2 (List.mem_cons_of_mem _ he2))
    refine ⟨st2, ?_, by rw [hkeys2, hkeys]⟩
    simp only [buildDepsGo, hstep]
    exact hok

/- ------------------------------------------------------------------ -/
/- Key sets of the constructed maps                                    -/
/- ------------------------------------------------------------------ -/

theorem buildNodesMap_keys_nodup (ns : List RawNode) :
    (alKeys (buildNodesMap ns)).Nodup := by
  have hgen : ∀ (init : AL NodeL), (alKeys init).Nodup →
      (alKeys (ns.foldl (fun m rn => alUpsert m rn.id (buildNode rn)) init)).Nodup := by
    induction ns with
    | nil => exact fun init h => h
    | cons rn rest ih =>
      intro init h
      exact ih _ (alKeys_alUpsert_nodup _ _ _ h)
  exact hgen [] (by simp [alKeys])

theorem buildConnsMap_keys_sub (cs : List RawConn) :
    ∀ k ∈ alKeys (buildConnsMap cs), k ∈ cs.map (fun c => c.target) := by
  have hgen : ∀ (init : AL (AL String)), ∀ k,
      k ∈ alKeys (cs.foldl (fun m c =>
        alUpsert m c.target (alUpsert (alGetD m c.target []) c.targetInput c.source)) init) →
      k ∈ alKeys init ∨ k ∈ cs.map (fun c => c.target) := by
    induction cs with
    | nil => exact fun init k h => Or.inl h
    | cons c rest ih =>
      intro init k h
      rcases ih _ k h with h | h
      · rcases (mem_alKeys_alUpsert _ _ _ k).mp h with h | h
        · exact Or.inl h
        · exact Or.inr (by simp [h])
      · exact Or.inr (by simp [List.mem_map] at h ⊢; tauto)
  intro k h
  rcases hgen [] k h with h | h
  · simp [alKeys] at h
  · exact h

/- ------------------------------------------------------------------ -/
/- The fallback keeps the schedule a permutation                       -/
/- ------------------------------------------------------------------ -/

theorem part_filter_perm (ids part : List String) (h1 : ids.Nodup)
    (h2 : part.Nodup) (h3 : ∀ n ∈ part, n ∈ ids) :
    (part ++ ids.filter (fun n => !(part.contains n))).Perm ids := by
  rw [List.perm_iff_count]
  intro a
  rw [List.count_append]
  by_cases ha : a ∈ part
  · have hcp : part.count a = 1 := List.count_eq_one_of_mem h2 ha
    have hcf : (ids.filter (fun n => !(part.contains n))).count a = 0 := by
      rw [List.count_eq_zero]
      intro hmem
      have := (List.mem_filter.mp hmem).2
      rw [Bool.not_eq_true', ← Bool.not_eq_true] at this
      exact this (List.elem_iff.mpr ha)
    have hci : ids.count a = 1 := List.count_eq_one_of_mem h1 (h3 a ha)
    omega
  · have hcp : part.count a = 0 := List.count_eq_zero.mpr ha
    by_cases hai : a ∈ ids
    · have hcf : (ids.filter (fun n => !(part.contains n))).count a = ids.count a := by
        rw [List.count_filter]
        simp [ha]
      omega
    · have hcf : (ids.filter (fun n => !(part.contains n))).count a = 0 := by
        rw [List.count_eq_zero]
        intro hmem
        exact hai (List.mem_of_mem_filter hmem)
      have hci : ids.count a = 0 := List.count_eq_zero.mpr hai
      omega

/-- Whether the Kahn phase alone orders every node (the acyclic case:
the fallback of _topological_sort then has nothing to append). -/
def kahnSchedulesAll (ids : List String) (conns : AL (AL String)) : Bool :=
  match kahnPhase ids conns with
  | Except.ok part => ids.all (fun n => part.contains n)
  | Except.error _ => false

theorem kahnPhase_eq (ids : List String) (conns : AL (AL String)) :
    kahnPhase ids conns
      = match buildDeps ids conns with
        | Except.error e => Except.error e
        | Except.ok (d0, adj) =>
          kahnLoop adj ids.length
            (ids.filter (fun n => alGet d0 n == Option.some 0)) d0 [] := by
  unfold kahnPhase
  cases hbd : buildDeps ids conns with
  | error e => rfl
  | ok st =>
    obtain ⟨d0, adj⟩ := st
    rfl

theorem topologicalSort_eq (ids : List String) (conns : AL (AL String)) :
    topologicalSort ids conns
      = match kahnPhase ids conns with
        | Except.error e => Except.error e
        | Except.ok part =>
          Except.ok (part ++ ids.filter (fun n => !(part.contains n))) := by
  unfold topologicalSort
  cases kahnPhase ids conns with
  | error e => rfl
  | ok part => rfl

theorem buildGraph_eq (raw : RawGraph) :
    buildGraph raw
      = match topologicalSort (alKeys (buildNodesMap (optimizeGraph raw).nodes))
          (buildConnsMap (optimizeGraph raw).connections) with
        | Except.error e => Except.error e
        | Except.ok sort =>
          Except.ok
            { nodes := buildNodesMap (optimizeGraph raw).nodes,
              connections := buildConnsMap (optimizeGraph raw).connections,
              sort := sort,
              input_ids :=
                ((buildNodesMap (optimizeGraph raw).nodes).filter
                  (fun p => p.2.type == Option.some "in")).map (fun p => p.1),
              output_ids :=
                ((buildNodesMap (optimizeGraph raw).nodes).filter
                  (fun p => p.2.type == Option.some "out")).map (fun p => p.1),
              all_ports := buildPortMapping (buildNodesMap (optimizeGraph raw).nodes) } := by
  have h : buildGraph raw
      = Except.bind (topologicalSort (alKeys (buildNodesMap (optimizeGraph raw).nodes))
          (buildConnsMap (optimizeGraph raw).connections))
        (fun sort => Except.ok
          { nodes := buildNodesMap (optimizeGraph raw).nodes,
            connections := buildConnsMap (optimizeGraph raw).connections,
            sort := sort,
            input_ids :=
              ((buildNodesMap (optimizeGraph raw).nodes).filter
                (fun p => p.2.type == Option.some "in")).map (fun p => p.1),
            output_ids :=
              ((buildNodesMap (optimizeGraph raw).nodes).filter
                (fun p => p.2.type == Option.some "out")).map (fun p => p.1),
            all_ports := buildPortMapping (buildNodesMap (optimizeGraph raw).nodes) }) := rfl
  rw [h]
  cases topologicalSort (alKeys (buildNodesMap (optimizeGraph raw).nodes))
      (buildConnsMap (optimizeGraph raw).connections) with
  | error e => rfl
  | ok sort => rfl

theorem kahnPhase_spec (ids : List String) (conns : AL (AL String))
    (d0 : AL Int) (adj : AL (List String)) (part : List String)
    (hidnd : ids.Nodup)
    (hbd : buildDeps ids conns = Except.ok (d0, adj))
    (hok : kahnPhase ids conns = Except.ok part) :
    part.Nodup ∧ (∀ n ∈ part, n ∈ ids)
    ∧ (∀ t a1 a2, part = a1 ++ t :: a2 → ∀ s, t ∈ alGetD adj s [] → s ∈ a1) := by
  obtain ⟨⟨h1, h2, h3, h4, h5⟩, _⟩ := buildDeps_spec ids conns d0 adj hbd
  rw [kahnPhase_eq, hbd] at hok
  apply kahnLoop_spec ids adj h4 h5 ids.length
    (ids.filter (fun n => alGet d0 n == Option.some 0)) d0 [] part hok
  · simpa using List.Nodup.filter _ hidnd
  · intro n hn
    have hn2 : n ∈ ids.filter (fun n => alGet d0 n == Option.some 0) := by
      simpa only [List.nil_append] using hn
    exact List.mem_of_mem_filter hn2
  · intro n hn
    simpa using h1 n hn
  · exact h2
  · intro n hn
    have hmem := List.mem_filter.mp hn
    have hg := h1 n hmem.1
    have hz : alGet d0 n = Option.some 0 := by
      have := hmem.2
      simpa using this
    rw [hz] at hg
    have := Option.some_inj.mp hg
    omega
  · intro n hn
    simp at hn
  · intro t a1 a2 hsplit
    exact absurd hsplit (by simp)

/- ------------------------------------------------------------------ -/
/- C10 and the amended C6                                              -/
/- ------------------------------------------------------------------ -/

/-- C10: for every successfully constructed Graph the schedule is a
permutation of the node ids — every node appears exactly once, even
when no topological order exists (the fallback appends the cyclic
remainder) — and construction never fails when every optimized
connection's target is a node (its only failure is the KeyError on a
counted non-node target, which no cycle can cause). -/
theorem schedule_is_permutation_of_nodes :
    (∀ (raw : RawGraph) (sortIds ids : List String),
      (buildGraph raw).map (fun g => (g.sort, alKeys g.nodes))
        = Except.ok (sortIds, ids) → sortIds.Perm ids)
    ∧ (∀ raw : RawGraph,
      (∀ c ∈ (optimizeGraph raw).connections,
        c.target ∈ alKeys (buildNodesMap (optimizeGraph raw).nodes)) →
      ∃ g, buildGraph raw = Except.ok g) := by
  constructor
  · intro raw sortIds ids hmain
    rw [buildGraph_eq] at hmain
    cases hts : topologicalSort (alKeys (buildNodesMap (optimizeGraph raw).nodes))
        (buildConnsMap (optimizeGraph raw).connections) with
    | error e =>
      rw [hts] at hmain
      exact absurd hmain (by simp [Except.map])
    | ok sort =>
      rw [hts] at hmain
      simp only [Except.map, Except.ok.injEq, Prod.mk.injEq] at hmain
      obtain ⟨hsort, hids⟩ := hmain
      rw [topologicalSort_eq] at hts
      cases hkp : kahnPhase (alKeys (buildNodesMap (optimizeGraph raw).nodes))
          (buildConnsMap (optimizeGraph raw).connections) with
      | error e =>
        rw [hkp] at hts
        exact absurd hts (by simp)
      | ok part =>
        rw [hkp] at hts
        have hsorteq := Except.ok.inj hts
        cases hbd : buildDeps (alKeys (buildNodesMap (optimizeGraph raw).nodes))
            (buildConnsMap (optimizeGraph raw).connections) with
        | error e =>
          rw [kahnPhase_eq, hbd] at hkp
          exact absurd hkp (by simp)
        | ok st =>
          obtain ⟨d0, adj⟩ := st
          have hidnd := buildNodesMap_keys_nodup (optimizeGraph raw).nodes
          obtain ⟨hpnd, hpsub, _⟩ :=
            kahnPhase_spec _ _ d0 adj part hidnd hbd hkp
          rw [← hids, ← hsort, ← hsorteq]
          exact part_filter_perm _ part hidnd hpnd hpsub
  · intro raw hclosed
    have hall : ∀ e ∈ buildConnsMap (optimizeGraph raw).connections,
        e.1 ∈ alKeys (buildNodesMap (optimizeGraph raw).nodes) := by
      intro e he
      have hk : e.1 ∈ alKeys (buildConnsMap (optimizeGraph raw).connections) :=
        List.mem_map_of_mem (fun p => p.1) he
      have := buildConnsMap_keys_sub _ e.1 hk
      obtain ⟨c, hc, hct⟩ := List.mem_map.mp this
      exact hct ▸ hclosed c hc
    have hinit : ∀ e ∈ buildConnsMap (optimizeGraph raw).connections,
        e.1 ∈ alKeys ((alKeys (buildNodesMap (optimizeGraph raw).nodes)).map
          (fun i => (i, (0 : Int))), ([] : AL (List String))).1 := by
      intro e he
      rw [alKeys_map_const]
      exact hall e he
    obtain ⟨⟨d0, adj⟩, hbd, hkeys⟩ :=
      buildDepsGo_ok _ (buildConnsMap (optimizeGraph raw).connections) _ hinit
    have hbd2 : buildDeps (alKeys (buildNodesMap (optimizeGraph raw).nodes))
        (buildConnsMap (optimizeGraph raw).connections) = Except.ok (d0, adj) := hbd
    obtain ⟨⟨_, h2, _, _, h5⟩, _⟩ := buildDeps_spec _ _ d0 adj hbd2
    obtain ⟨part, hloop⟩ := kahnLoop_ok adj
      (alKeys (buildNodesMap (optimizeGraph raw).nodes)).length
      ((alKeys (buildNodesMap (optimizeGraph raw).nodes)).filter
        (fun n => alGet d0 n == Option.some 0)) d0 []
      (fun p hp u hu => h2 ▸ h5 p hp u hu)
    have hkp : kahnPhase (alKeys (buildNodesMap (optimizeGraph raw).nodes))
        (buildConnsMap (optimizeGraph raw).connections) = Except.ok part := by
      rw [kahnPhase_eq, hbd2]
      exact hloop
    rw [buildGraph_eq, topologicalSort_eq, hkp]
    exact ⟨_, rfl⟩

/-- C10 witness: a concrete two-node graph on which construction
succeeds and the schedule is a (non-trivial) permutation of the node
ids. -/
def c10raw : RawGraph :=
  { nodes := [
      { id := "y", uid := Option.some "y", type := Option.some "out" },
      { id := "x", uid := Option.some "x", type := Option.some "compute" } ],
    connections := [ { source := "x", target := "y", targetInput := "v" } ] }

theorem schedule_is_permutation_witness :
    (["x", "y"] : List String).Perm ["y", "x"] :=
  schedule_is_permutation_of_nodes.1 c10raw ["x", "y"] ["y", "x"] (by rfl)

/-- C6 amended: when the Kahn phase schedules every node (no cycle
among the counted dependencies, so the fallback appends nothing), every
connection counted by the scheduler — target slot wired to a source
whose node id is in the node set — has its source node preceding its
target in the schedule. -/
theorem schedule_respects_edges_when_kahn_complete :
    ∀ (raw : RawGraph) (sortIds ids : List String) (conns : AL (AL String)),
    (buildGraph raw).map (fun g => (g.sort, alKeys g.nodes, g.connections))
      = Except.ok (sortIds, ids, conns) →
    kahnSchedulesAll ids conns = true →
    ∀ (t slot src : String),
    alGet (alGetD conns t []) slot = Option.some src →
    (splitPortId src).1 ∈ ids →
    PrecedesIn sortIds (splitPortId src).1 t := by
  intro raw sortIds ids conns hmain hcomp t slot src hconn hsid
  rw [buildGraph_eq] at hmain
  cases hts : topologicalSort (alKeys (buildNodesMap (optimizeGraph raw).nodes))
      (buildConnsMap (optimizeGraph raw).connections) with
  | error e =>
    rw [hts] at hmain
    exact absurd hmain (by simp [Except.map])
  | ok sort =>
    rw [hts] at hmain
    simp only [Except.map, Except.ok.injEq, Prod.mk.injEq] at hmain
    obtain ⟨ha, hb, hc⟩ := hmain
    subst ha
    subst hb
    subst hc
    rw [topologicalSort_eq] at hts
    cases hkp : kahnPhase (alKeys (buildNodesMap (optimizeGraph raw).nodes))
        (buildConnsMap (optimizeGraph raw).connections) with
    | error e =>
      rw [hkp] at hts
      exact absurd hts (by simp)
    | ok part =>
      rw [hkp] at hts
      have hsorteq := Except.ok.inj hts
      unfold kahnSchedulesAll at hcomp
      rw [hkp] at hcomp
      have hall : ∀ n ∈ alKeys (buildNodesMap (optimizeGraph raw).nodes),
          n ∈ part := by
        intro n hn
        exact List.elem_iff.mp (List.all_eq_true.mp hcomp n hn)
      have hfilter : (alKeys (buildNodesMap (optimizeGraph raw).nodes)).filter
          (fun n => !(part.contains n)) = [] := by
        rw [List.filter_eq_nil]
        intro n hn
        simp [List.elem_iff, hall n hn]
      cases hbd : buildDeps (alKeys (buildNodesMap (optimizeGraph raw).nodes))
          (buildConnsMap (optimizeGraph raw).connections) with
      | error e =>
        rw [kahnPhase_eq, hbd] at hkp
        exact absurd hkp (by simp)
      | ok st =>
        obtain ⟨d0, adj⟩ := st
        have hidnd := buildNodesMap_keys_nodup (optimizeGraph raw).nodes
        obtain ⟨_, _, hprec⟩ := kahnPhase_spec _ _ d0 adj part hidnd hbd hkp
        obtain ⟨_, hedge⟩ := buildDeps_spec _ _ d0 adj hbd
        cases hge : alGet (buildConnsMap (optimizeGraph raw).connections) t with
        | none =>
          rw [alGetD, hge] at hconn
          simp [alGet] at hconn
        | some slots =>
          have hte : (t, slots) ∈ buildConnsMap (optimizeGraph raw).connections :=
            alGet_mem hge
          rw [alGetD, hge] at hconn
          simp only [Option.getD_some] at hconn
          have hsl : (slot, src) ∈ slots := alGet_mem hconn
          obtain ⟨hadj_t, htids⟩ := hedge (t, slots) hte (slot, src) hsl hsid
          have htpart : t ∈ part := hall t htids
          obtain ⟨a1, a2, hsplit⟩ := List.append_of_mem htpart
          have hs := hprec t a1 a2 hsplit ((splitPortId src).1) hadj_t
          refine ⟨a1, a2, ?_, hs⟩
          rw [← hsorteq, hfilter, List.append_nil, hsplit]

/-- C6 amended witness: an acyclic input, compute, output chain. -/
def c6wit : RawGraph :=
  { nodes := [
      { id := "i1", uid := Option.some "i1", type := Option.some "in" },
      { id := "c1", uid := Option.some "f1", type := Option.some "compute" },
      { id := "o1", uid := Option.some "o1", type := Option.some "out" } ],
    connections := [
      { source := "i1", target := "c1", targetInput := "v" },
      { source := "c1", target := "o1", targetInput := "w" } ] }

theorem schedule_respects_edges_witness :
    PrecedesIn ["i1", "c1", "o1"] "i1" "c1" :=
  schedule_respects_edges_when_kahn_complete c6wit ["i1", "c1", "o1"]
    ["i1", "c1", "o1"] [("c1", [("v", "i1")]), ("o1", [("w", "c1")])]
    (by rfl) (by rfl) "c1" "v" "i1" (by rfl) (by decide)

/- ------------------------------------------------------------------ -/
/- Amended C5: the output-node step                                    -/
/- ------------------------------------------------------------------ -/

theorem alUpsert_append_of_not_mem {α : Type} (m : AL α) (k : String) (v : α)
    (h : k ∉ alKeys m) : alUpsert m k v = m ++ [(k, v)] := by
  induction m with
  | nil => rfl
  | cons p ps ih =>
    simp only [alKeys, List.map_cons, List.mem_cons] at h
    push_neg at h
    have hp : ¬ (p.1 == k) := by
      simp only [beq_iff_eq]
      exact fun he => h.1 he.symm
    simp [alUpsert, hp, ih h.2]

theorem alUpsertFold_eq_map (pr : AL Val) :
    ∀ (srcs : AL String), (alKeys srcs).Nodup →
    srcs.foldl (fun acc sl => alUpsert acc sl.1 (pyGet pr sl.2)) []
      = srcs.map (fun sl => (sl.1, pyGet pr sl.2)) := by
  have hgen : ∀ (srcs : AL String) (acc : AL Val),
      (alKeys srcs).Nodup → (∀ sl ∈ srcs, sl.1 ∉ alKeys acc) →
      srcs.foldl (fun acc sl => alUpsert acc sl.1 (pyGet pr sl.2)) acc
        = acc ++ srcs.map (fun sl => (sl.1, pyGet pr sl.2)) := by
    intro srcs
    induction srcs with
    | nil => intro acc _ _; simp
    | cons sl rest ih =>
      intro acc hnd hout
      simp only [alKeys, List.map_cons, List.nodup_cons] at hnd
      rw [List.foldl_cons,
        alUpsert_append_of_not_mem acc sl.1 _ (hout sl (List.mem_cons_self _ _))]
      rw [ih (acc ++ [(sl.1, pyGet pr sl.2)]) hnd.2 ?_]
      · simp
      · intro sl2 hsl2
        simp only [alKeys, List.map_append, List.mem_append]
        push_neg
        refine ⟨?_, ?_⟩
        · exact fun hin => (hout sl2 (List.mem_cons_of_mem _ hsl2)) hin
        · simp only [List.map_cons, List.map_nil, List.mem_singleton]
          intro he
          exact hnd.1 (he ▸ List.mem_map_of_mem (fun p => p.1) hsl2)
  intro srcs hnd
  simpa using hgen srcs [] hnd (by simp [alKeys])

/-- C5 amended: a compiled Output node never fails: with exactly one
input slot the calculator registers, under the node's uid (or id when
the uid is falsy), the port-value map's entry for that slot's source —
None when the port-value map has no such key — and with any other
number of slots it registers the keyed bundle of the slots' looked-up
values, each again None when absent; the port-value map is unchanged.
No MissingValueError exists anywhere in the code. -/
theorem output_node_step_spec :
    ∀ (node : NodeL) (srcs : AL String) (pm : AL (AL String))
      (iv pr outs : AL Val),
    node.type = Option.some "out" →
    (alKeys srcs).Nodup →
    calcStep pm iv (pr, outs) (node, createOutputNodeFunc node srcs)
      = Except.ok (pr, alUpsert outs (truthyOr node.uid node.id)
          (if srcs.length = 1 then pyGet pr srcs.headI.2
           else Val.dict (srcs.map (fun sl => (sl.1, pyGet pr sl.2))))) := by
  intro node srcs pm iv pr outs htype hnd
  simp only [calcStep, createOutputNodeFunc, htype]
  rw [if_neg (by decide : ¬ ((Option.some "out" : Option String) = Option.some "in"))]
  by_cases hlen : srcs.length = 1
  · rw [if_pos hlen]
    simp [hlen]
  · rw [if_neg hlen]
    rw [alUpsertFold_eq_map pr srcs hnd]
    simp [hlen]

/-- A concrete Output node for the C5 witness. -/
def outNode1 : NodeL :=
  { id := "res1", uid := Option.some "res1", type := Option.some "out" }

theorem output_node_step_witness :
    calcStep [] [] ([("s1", Val.np (Val.int 7))], [])
        (outNode1, createOutputNodeFunc outNode1 [("value", "s1")])
      = Except.ok ([("s1", Val.np (Val.int 7))], [("res1", Val.np (Val.int 7))]) :=
  output_node_step_spec outNode1 [("value", "s1")] [] []
    [("s1", Val.np (Val.int 7))] [] rfl (by decide)

/- ------------------------------------------------------------------ -/
/- Amended C8: idempotence when the first pass drops nothing           -/
/- ------------------------------------------------------------------ -/

theorem processVariableNodes_no_vars (g : RawGraph)
    (h : ∀ n ∈ g.nodes, ¬ n.type = Option.some "variable") :
    processVariableNodes g = g := by
  have hv : g.nodes.filter (fun n => n.type == Option.some "variable") = [] := by
    rw [List.filter_eq_nil]
    intro n hn
    simpa using h n hn
  have hfilter : g.connections.filter
      (fun c => !((([] : List (String × String × String))).contains (connTuple c)))
        = g.connections := by
    rw [List.filter_eq_self]
    intro c _
    rfl
  cases g with
  | mk ns cs =>
    simp only at hv hfilter
    simp only [processVariableNodes, hv, variableGroups, List.foldl_nil,
      variableNewConnections, variableRemovedConnections, List.flatMap_nil,
      List.map_nil, RawGraph.mk.injEq, true_and]
    rw [hfilter]
    simp

/-- C8 amended: the optimizer is idempotent on every description
without Variable nodes on which the first run drops nothing — every
node is retained and both endpoints of every connection are retained.
(The counterexample shows why dropping matters: a node retained only
as a connection source loses that justification on the second run once
its connection is dropped.) -/
theorem optimizer_idempotent_when_nothing_dropped :
    ∀ raw : RawGraph,
    (∀ n ∈ raw.nodes, ¬ n.type = Option.some "variable") →
    (∀ n ∈ raw.nodes, n.id ∈ usedNodes raw) →
    (∀ c ∈ raw.connections, c.target ∈ usedNodes raw
      ∧ extractNodeIdFromSource c.source ∈ usedNodes raw) →
    optimizeGraph (optimizeGraph raw) = optimizeGraph raw := by
  intro raw hvar hnodes hconns
  have hpv : processVariableNodes raw = raw :=
    processVariableNodes_no_vars raw hvar
  have hopt : optimizeGraph raw = raw := by
    unfold optimizeGraph
    rw [hpv]
    cases raw with
    | mk ns cs =>
      simp only [RawGraph.mk.injEq]
      constructor
      · rw [List.filter_eq_self]
        intro n hn
        simpa using hnodes n hn
      · rw [List.filter_eq_self]
        intro c hc
        have := hconns c hc
        simp only [decide_eq_true_eq]
        exact this
  rw [hopt]
  exact hopt

/-- C8 amended witness: an input wired to an output; nothing is
dropped, and optimization is idempotent. -/
def c8wit : RawGraph :=
  { nodes := [
      { id := "i8", uid := Option.some "i8", type := Option.some "in" },
      { id := "o8", uid := Option.some "o8", type := Option.some "out" } ],
    connections := [ { source := "i8", target := "o8", targetInput := "v" } ] }

theorem optimizer_idempotent_witness :
    optimizeGraph (optimizeGraph c8wit) = optimizeGraph c8wit :=
  optimizer_idempotent_when_nothing_dropped c8wit (by decide) (by decide) (by decide)

/- ------------------------------------------------------------------ -/
/- C9: a None input value is the same as an absent one                 -/
/- ------------------------------------------------------------------ -/

theorem alGet_alRemove_self {α : Type} (m : AL α) (k : String) :
    alGet (alRemove m k) k = Option.none := by
  induction m with
  | nil => rfl
  | cons p ps ih =>
    by_cases hp : p.1 = k
    · simpa [alRemove, List.filter_cons, hp] using ih
    · have hpb : ¬ (p.1 == k) := by simpa using hp
      simpa [alRemove, List.filter_cons, alGet_cons, hp, hpb] using ih

theorem alGet_alRemove_ne {α : Type} (m : AL α) (k u : String) (h : u ≠ k) :
    alGet (alRemove m k) u = alGet m u := by
  induction m with
  | nil => rfl
  | cons p ps ih =>
    by_cases hp : p.1 = k
    · have hpu : ¬ (p.1 == u) := by
        simp only [beq_iff_eq]
        exact fun he => h (he ▸ hp)
      have hku : ¬ k = u := fun he => h he.symm
      simp only [alRemove, List.filter_cons] at ih ⊢
      simp [hp, alGet_cons, hpu, hku]
      simpa [alRemove] using ih
    · by_cases hpu : p.1 == u
      · simp [alRemove, List.filter_cons, hp, alGet_cons, hpu]
      · simp only [alRemove, List.filter_cons] at ih ⊢
        simp [hp, alGet_cons, hpu]
        simpa [alRemove] using ih

theorem except_mapM_mem {α β : Type} (f : α → Except String β) :
    ∀ (l : List α) (res : List β), l.mapM f = Except.ok res →
    ∀ y ∈ res, ∃ x ∈ l, f x = Except.ok y := by
  intro l
  induction l with
  | nil =>
    intro res hok y hy
    simp only [List.mapM_nil, pure, Except.pure, Except.ok.injEq] at hok
    subst hok
    cases hy
  | cons x xs ih =>
    intro res hok y hy
    rw [List.mapM_cons] at hok
    cases hfx : f x with
    | error e =>
      rw [hfx] at hok
      simp only [bind, Except.bind] at hok
      exact Except.noConfusion hok
    | ok b =>
      rw [hfx] at hok
      cases hrest : xs.mapM f with
      | error e =>
        rw [hrest] at hok
        simp only [bind, Except.bind] at hok
        exact Except.noConfusion hok
      | ok bs =>
        rw [hrest] at hok
        simp only [bind, Except.bind, pure, Except.pure, Except.ok.injEq] at hok
        subst hok
        rcases List.mem_cons.mp hy with rfl | hy
        · exact ⟨x, List.mem_cons_self _ _, hfx⟩
        · obtain ⟨x2, hx2, hfx2⟩ := ih bs hrest y hy
          exact ⟨x2, List.mem_cons_of_mem _ hx2, hfx2⟩


theorem except_bind_ok {α β : Type} (a : α) (f : α → Except String β) :
    Except.bind (Except.ok a) f = f a := rfl

theorem except_bind_error {α β : Type} (e : String) (f : α → Except String β) :
    Except.bind (Except.error e) f = Except.error e := rfl

theorem compilePlan_eq (pool : AL NodeFn) (g : GraphL) :
    GraphCompiler.compilePlan pool g
      = Except.bind (g.sort.mapM (fun nid =>
          match alGet g.nodes nid with
          | Option.none => Except.error ("KeyError: " ++ nid)
          | Option.some n => Except.ok n))
        (fun entries => Except.bind
          (entries.mapM (fun n => Except.bind (compileNode pool g n)
            (fun f => Except.ok (n, f))))
          (fun node_list => Except.ok
            { node_list := node_list, all_ports := g.all_ports,
              input_ids := g.input_ids, output_ids := g.output_ids })) := rfl

theorem compilePlan_input_nodes (pool : AL NodeFn) (g : GraphL) (c : CompiledL)
    (hok : GraphCompiler.compilePlan pool g = Except.ok c) :
    ∀ e ∈ c.node_list, e.1.type = Option.some "in" →
    e.2 = createInputNodeFunc e.1 := by
  intro e he htype
  rw [compilePlan_eq] at hok
  cases hent : g.sort.mapM (fun nid =>
      match alGet g.nodes nid with
      | Option.none => Except.error ("KeyError: " ++ nid)
      | Option.some n => Except.ok n) with
  | error err =>
    rw [hent, except_bind_error] at hok
    exact Except.noConfusion hok
  | ok entries =>
    rw [hent, except_bind_ok] at hok
    cases hnl : entries.mapM (fun n => Except.bind (compileNode pool g n)
        (fun f => Except.ok (n, f))) with
    | error err =>
      rw [hnl, except_bind_error] at hok
      exact Except.noConfusion hok
    | ok node_list =>
      rw [hnl, except_bind_ok] at hok
      simp only [Except.ok.injEq] at hok
      subst hok
      obtain ⟨n, _, hfn⟩ := except_mapM_mem
        (fun n => Except.bind (compileNode pool g n) (fun f => Except.ok (n, f)))
        entries node_list hnl e he
      cases hcn : compileNode pool g n with
      | error err =>
        rw [hcn, except_bind_error] at hfn
        exact Except.noConfusion hfn
      | ok f =>
        rw [hcn, except_bind_ok] at hfn
        simp only [Except.ok.injEq] at hfn
        subst hfn
        simp only at htype ⊢
        unfold compileNode at hcn
        rw [if_pos htype] at hcn
        exact (Except.ok.inj hcn).symm

theorem calcFold_bundle_ext (pm : AL (AL String)) (b1 b2 : AL Val)
    (hb : ∀ k, pyGet b1 k = pyGet b2 k) :
    ∀ (entries : List (NodeL × CompiledFn)) (st : AL Val × AL Val),
    (∀ e ∈ entries, e.1.type = Option.some "in" → e.2 = createInputNodeFunc e.1) →
    entries.foldlM (calcStep pm b1) st = entries.foldlM (calcStep pm b2) st := by
  intro entries
  induction entries with
  | nil => intro st _; rfl
  | cons e rest ih =>
    intro st hin
    rw [List.foldlM_cons, List.foldlM_cons]
    have hstep : calcStep pm b1 st e = calcStep pm b2 st e := by
      obtain ⟨pr, outs⟩ := st
      by_cases ht : e.1.type = Option.some "in"
      · have hfn := hin e (List.mem_cons_self _ _) ht
        have hinp : createInputNodeFunc e.1 b1 = createInputNodeFunc e.1 b2 := by
          simp only [createInputNodeFunc]
          rw [hb (truthyOr e.1.uid e.1.id)]
        simp [calcStep, ht, hfn, hinp]
      · simp [calcStep, ht]
    rw [hstep]
    cases hst : calcStep pm b2 st e with
    | error err =>
      simp only [bind, Except.bind]
    | ok st2 =>
      simp only [bind, Except.bind]
      exact ih st2 (fun e2 he2 => hin e2 (List.mem_cons_of_mem _ he2))

/-- C9: at the execute interface an input bundle mapping a uid to None
is indistinguishable from one omitting the uid: the input-node closure
raises the missing-input error on both (dict.get returns None for both,
and the code tests "value is None"), and a whole compiled program
produces identical results on the two bundles, so None can never be
supplied as a legitimate input value. -/
theorem none_input_indistinguishable_from_missing :
    (∀ (node : NodeL) (bundle : AL Val),
      createInputNodeFunc node
          (alUpsert bundle (truthyOr node.uid node.id) Val.none)
        = Except.error (inputErrMsg (truthyOr node.uid node.id))
      ∧ createInputNodeFunc node
          (alRemove bundle (truthyOr node.uid node.id))
        = Except.error (inputErrMsg (truthyOr node.uid node.id)))
    ∧ (∀ (g : GraphL) (c : CompiledL) (pool : AL NodeFn)
        (bundle : AL Val) (u : String),
      GraphCompiler.compilePlan pool g = Except.ok c →
      executePlan c (alUpsert bundle u Val.none)
        = executePlan c (alRemove bundle u)) := by
  constructor
  · intro node bundle
    constructor
    · simp only [createInputNodeFunc]
      rw [show pyGet (alUpsert bundle (truthyOr node.uid node.id) Val.none)
            (truthyOr node.uid node.id) = Val.none by
          simp [pyGet, alGetD, alGet_upsert_self]]
      rfl
    · simp only [createInputNodeFunc]
      rw [show pyGet (alRemove bundle (truthyOr node.uid node.id))
            (truthyOr node.uid node.id) = Val.none by
          simp [pyGet, alGetD, alGet_alRemove_self]]
      rfl
  · intro g c pool bundle u hc
    have hin := compilePlan_input_nodes pool g c hc
    have hb : ∀ k, pyGet (alUpsert bundle u Val.none) k
        = pyGet (alRemove bundle u) k := by
      intro k
      by_cases hk : k = u
      · subst hk
        simp [pyGet, alGetD, alGet_upsert_self, alGet_alRemove_self]
      · simp [pyGet, alGetD, alGet_upsert_ne bundle u k Val.none hk,
          alGet_alRemove_ne bundle u k hk]
    unfold executePlan
    rw [calcFold_bundle_ext c.all_ports _ _ hb c.node_list ([], []) hin]

/-- C9 witness: a concrete input node. -/
def inNode1 : NodeL :=
  { id := "i", uid := Option.some "i", type := Option.some "in" }

theorem none_input_witness :
    createInputNodeFunc inNode1
        (alUpsert [] (truthyOr inNode1.uid inNode1.id) Val.none)
      = Except.error (inputErrMsg (truthyOr inNode1.uid inNode1.id)) :=
  (none_input_indistinguishable_from_missing.1 inNode1 []).1

/- ------------------------------------------------------------------ -/
/- C1: conditional-branch lowering, modelled from the spec             -/
/- ------------------------------------------------------------------ -/

/-- Modelled from the spec: one element of the otherwise-opaque tensor
type — a number or the "no data" sentinel (section 1/6 of the spec).
The conditional-branch lowering of section 4.4 is absent from the files
under src, so this whole section models it from the spec's words. -/
inductive Cell where
  | noData : Cell
  | val : Int → Cell
deriving DecidableEq, Repr

/-- Modelled from the spec: element-wise select(mask, t, f). -/
def selectMask : List Bool → List Cell → List Cell → List Cell
  | m :: ms, a :: as2, b :: bs => (if m then a else b) :: selectMask ms as2 bs
  | _, _, _ => []

/-- Modelled from the spec: branch inputs — clone the port-value map
and replace every tensor element whose mask entry is false by the
fill value (the no-data sentinel for the true branch, zero for the
false branch, which receives the inverted mask). -/
def branchInputs (mask : List Bool) (fill : Cell) (pvm : AL (List Cell)) :
    AL (List Cell) :=
  pvm.map (fun p => (p.1, (p.2.zip mask).map (fun cv => if cv.2 then cv.1 else fill)))

/-- Modelled from the spec: an all-zero tensor shaped like the mask. -/
def zerosLike (mask : List Bool) : List Cell := mask.map (fun _ => Cell.val 0)

/-- Modelled from the spec: the true-branch result — the true-branch
program run on the no-data-masked inputs when any mask element is
true; an all-zero tensor when the branch did not run. -/
def trueResult (mask : List Bool) (tprog : AL (List Cell) → List Cell)
    (pvm : AL (List Cell)) : List Cell :=
  if mask.any id then tprog (branchInputs mask Cell.noData pvm)
  else zerosLike mask

/-- Modelled from the spec: the false-branch result — the false-branch
program run on the zero-filled inverse-masked inputs when any mask
element is false; an all-zero tensor when the branch did not run. -/
def falseResult (mask : List Bool) (fprog : AL (List Cell) → List Cell)
    (pvm : AL (List Cell)) : List Cell :=
  if mask.any (fun b => !b) then
    fprog (branchInputs (mask.map (fun b => !b)) (Cell.val 0) pvm)
  else zerosLike mask

/-- Modelled from the spec: executing a Conditional node — run the two
branches as required and merge their results element-wise under the
mask; the merged tensor is registered as the conditional node's
output. -/
def condExec (mask : List Bool) (tprog fprog : AL (List Cell) → List Cell)
    (pvm : AL (List Cell)) : List Cell :=
  selectMask mask (trueResult mask tprog pvm) (falseResult mask fprog pvm)

/-- Registration of the merged value as the conditional node's output. -/
def condNodeStep (nodeId : String) (mask : List Bool)
    (tprog fprog : AL (List Cell) → List Cell) (pvm : AL (List Cell)) :
    AL (List Cell) :=
  alUpsert pvm nodeId (condExec mask tprog fprog pvm)

theorem selectMask_get? :
    ∀ (m : List Bool) (a b : List Cell) (i : Nat),
    i < m.length → a.length = m.length → b.length = m.length →
    (selectMask m a b).get? i
      = if m.getD i false then a.get? i else b.get? i := by
  intro m
  induction m with
  | nil =>
    intro a b i hi _ _
    simp at hi
  | cons mh mt ih =>
    intro a b i hi ha hb
    cases a with
    | nil => simp at ha
    | cons ah at2 =>
      cases b with
      | nil => simp at hb
      | cons bh bt =>
        simp only [List.length_cons, Nat.add_left_inj] at ha hb
        cases i with
        | zero =>
          simp only [selectMask, List.get?_cons_zero, List.getD]
          by_cases hm : mh <;> simp [hm]
        | succ i =>
          simp only [selectMask, List.get?_cons_succ, List.getD_cons_succ]
          exact ih at2 bt i (by simpa using hi) ha hb

/-- C1: executing a Conditional node with a boolean mask produces, as
the node's registered output, the element-wise select of the mask
between the true-branch result and the false-branch result. (The
conditional lowering is modelled from the spec: src contains no
Conditional handling.) -/
theorem conditional_select_correct :
    ∀ (nodeId : String) (mask : List Bool)
      (tprog fprog : AL (List Cell) → List Cell) (pvm : AL (List Cell))
      (i : Nat),
    i < mask.length →
    (trueResult mask tprog pvm).length = mask.length →
    (falseResult mask fprog pvm).length = mask.length →
    (alGetD (condNodeStep nodeId mask tprog fprog pvm) nodeId []).get? i
      = if mask.getD i false
        then (trueResult mask tprog pvm).get? i
        else (falseResult mask fprog pvm).get? i := by
  intro nodeId mask tprog fprog pvm i hi ht hf
  have hreg : alGetD (condNodeStep nodeId mask tprog fprog pvm) nodeId []
      = condExec mask tprog fprog pvm := by
    simp [condNodeStep, alGetD, alGet_upsert_self]
  rw [hreg]
  exact selectMask_get? mask _ _ i hi ht hf

/-- C1 witness: mask [true, false], true branch [5, 5], false branch
[9, 9]: the merged output is [5, 9], element by element and as a
whole. -/
theorem conditional_select_witness :
    condExec [true, false] (fun _ => [Cell.val 5, Cell.val 5])
        (fun _ => [Cell.val 9, Cell.val 9]) []
      = [Cell.val 5, Cell.val 9]
    ∧ (alGetD (condNodeStep "cond" [true, false]
          (fun _ => [Cell.val 5, Cell.val 5])
          (fun _ => [Cell.val 9, Cell.val 9]) []) "cond" []).get? 0
        = Option.some (Cell.val 5)
    ∧ (alGetD (condNodeStep "cond" [true, false]
          (fun _ => [Cell.val 5, Cell.val 5])
          (fun _ => [Cell.val 9, Cell.val 9]) []) "cond" []).get? 1
        = Option.some (Cell.val 9) := by
  refine ⟨rfl, ?_, ?_⟩
  · rw [conditional_select_correct "cond" [true, false]
      (fun _ => [Cell.val 5, Cell.val 5]) (fun _ => [Cell.val 9, Cell.val 9])
      [] 0 (by decide) (by rfl) (by rfl)]
    rfl
  · rw [conditional_select_correct "cond" [true, false]
      (fun _ => [Cell.val 5, Cell.val 5]) (fun _ => [Cell.val 9, Cell.val 9])
      [] 1 (by decide) (by rfl) (by rfl)]
    rfl

/- ------------------------------------------------------------------ -/
/- Amended C7: support lemmas                                          -/
/- ------------------------------------------------------------------ -/

theorem setAdd_mem (l : List String) (y x : String) :
    x ∈ setAdd l y ↔ x ∈ l ∨ x = y := by
  unfold setAdd
  by_cases hy : y ∈ l
  · simp only [hy, if_pos]
    constructor
    · exact Or.inl
    · rintro (h | rfl)
      · exact h
      · exact hy
  · simp [hy]

theorem foldl_setAdd_mem {β : Type} (f : β → String) :
    ∀ (l : List β) (acc : List String) (x : String),
    x ∈ l.foldl (fun a b => setAdd a (f b)) acc ↔ x ∈ acc ∨ ∃ b ∈ l, x = f b := by
  intro l
  induction l with
  | nil => simp
  | cons b rest ih =>
    intro acc x
    rw [List.foldl_cons, ih]
    rw [setAdd_mem]
    constructor
    · rintro ((h | h) | ⟨b2, hb2, rfl⟩)
      · exact Or.inl h
      · exact Or.inr ⟨b, List.mem_cons_self _ _, h⟩
      · exact Or.inr ⟨b2, List.mem_cons_of_mem _ hb2, rfl⟩
    · rintro (h | ⟨b2, hb2, rfl⟩)
      · exact Or.inl (Or.inl h)
      · rcases List.mem_cons.mp hb2 with rfl | hb2
        · exact Or.inl (Or.inr rfl)
        · exact Or.inr ⟨b2, hb2, rfl⟩

theorem foldl_alPush_getD {β α : Type} (key : β → String) (val : β → α) :
    ∀ (l : List β) (m : AL (List α)) (k : String),
    alGetD (l.foldl (fun m c => alPush m (key c) (val c)) m) k []
      = alGetD m k [] ++ (l.filter (fun c => key c == k)).map val := by
  intro l
  induction l with
  | nil => simp
  | cons c rest ih =>
    intro m k
    rw [List.foldl_cons, ih, List.filter_cons]
    by_cases hk : key c = k
    · have hkb : (key c == k) = true := by simpa using hk
      rw [hkb]
      simp only [if_pos]
      rw [hk, alGetD_alPush_self]
      simp
    · have hkb : ¬ ((key c == k) = true) := by simpa using hk
      simp only [hkb, Bool.false_eq_true, if_false]
      rw [alGetD_alPush_ne _ _ _ _ (fun he => hk he.symm)]

theorem alGroup_getD {α : Type} (key : RawConn → String) (val : RawConn → α)
    (conns : List RawConn) (k : String) :
    alGetD (alGroup key val conns) k []
      = (conns.filter (fun c => key c == k)).map val := by
  unfold alGroup
  rw [foldl_alPush_getD key val conns [] k]
  simp [alGetD, alGet]

theorem variableGroups_getD :
    ∀ (vs : List RawNode) (m : AL (List RawNode)) (l : String), l ≠ "" →
    alGetD (vs.foldl
      (fun m n => if n.data.label ≠ "" then alPush m n.data.label n else m) m) l []
      = alGetD m l [] ++ vs.filter (fun n => n.data.label == l) := by
  intro vs
  induction vs with
  | nil => simp
  | cons n rest ih =>
    intro m l hl
    rw [List.foldl_cons, List.filter_cons]
    by_cases hn : n.data.label = l
    · have hne : n.data.label ≠ "" := hn ▸ hl
      have hnb : (n.data.label == l) = true := by simpa using hn
      rw [if_pos hne, ih _ l hl, hnb]
      simp only [if_pos]
      rw [hn, alGetD_alPush_self]
      simp
    · have hnb : ¬ ((n.data.label == l) = true) := by simpa using hn
      simp only [hnb, Bool.false_eq_true, if_false]
      by_cases hne : n.data.label ≠ ""
      · rw [if_pos hne, ih _ l hl,
          alGetD_alPush_ne _ _ _ _ (fun he => hn he.symm)]
      · rw [if_neg hne, ih _ l hl]

theorem variableGroups_keys :
    ∀ (vs : List RawNode) (m : AL (List RawNode)) (k : String),
    k ∈ alKeys (vs.foldl
      (fun m n => if n.data.label ≠ "" then alPush m n.data.label n else m) m) →
    k ∈ alKeys m ∨ k ≠ "" := by
  intro vs
  induction vs with
  | nil => exact fun m k h => Or.inl h
  | cons n rest ih =>
    intro m k h
    rw [List.foldl_cons] at h
    by_cases hne : n.data.label ≠ ""
    · rw [if_pos hne] at h
      rcases ih _ k h with h2 | h2
      · rcases (mem_alKeys_alUpsert _ _ _ k).mp h2 with h3 | h3
        · exact Or.inl h3
        · exact Or.inr (h3 ▸ hne)
      · exact Or.inr h2
    · rw [if_neg hne] at h
      exact ih _ k h

theorem variableGroups_keys_nodup (vs : List RawNode) :
    (alKeys (variableGroups vs)).Nodup := by
  have hgen : ∀ (m : AL (List RawNode)), (alKeys m).Nodup →
      (alKeys (vs.foldl
        (fun m n => if n.data.label ≠ "" then alPush m n.data.label n else m) m)).Nodup := by
    induction vs with
    | nil => exact fun m h => h
    | cons n rest ih =>
      intro m h
      rw [List.foldl_cons]
      by_cases hne : n.data.label ≠ ""
      · rw [if_pos hne]
        exact ih _ (alKeys_alUpsert_nodup _ _ _ h)
      · rw [if_neg hne]
        exact ih _ h
  exact hgen [] (by simp [alKeys])

theorem alGet_of_mem_nodup {α : Type} {m : AL α} {k : String} {v : α}
    (hnd : (alKeys m).Nodup) (hmem : (k, v) ∈ m) : alGet m k = Option.some v := by
  induction m with
  | nil => cases hmem
  | cons p ps ih =>
    simp only [alKeys, List.map_cons, List.nodup_cons] at hnd
    rcases List.mem_cons.mp hmem with rfl | hmem
    · simp [alGet_cons]
    · have hk : k ∈ alKeys ps := List.mem_map_of_mem (fun q => q.1) hmem
      have hne : ¬ (p.1 == k) := by
        simp only [beq_iff_eq]
        exact fun he => hnd.1 (he ▸ hk)
      rw [alGet_cons]
      simp only [hne, Bool.false_eq_true, if_false]
      exact ih hnd.2 hmem

theorem alGet_some_of_getD_ne_nil {α : Type} {m : AL (List α)} {k : String}
    (h : alGetD m k [] ≠ []) : alGet m k = Option.some (alGetD m k []) := by
  cases hg : alGet m k with
  | none => rw [alGetD, hg] at h; simp at h
  | some l => rw [alGetD, hg]; rfl

theorem map_nodup_inj {β : Type} (f : β → String) :
    ∀ (l : List β), (l.map f).Nodup →
    ∀ a ∈ l, ∀ b ∈ l, f a = f b → a = b := by
  intro l
  induction l with
  | nil => intro _ a ha; cases ha
  | cons x rest ih =>
    intro hnd a ha b hb hf
    simp only [List.map_cons, List.nodup_cons] at hnd
    rcases List.mem_cons.mp ha with ha1 | ha2
    · rcases List.mem_cons.mp hb with hb1 | hb2
      · rw [ha1, hb1]
      · exfalso
        apply hnd.1
        rw [← ha1, hf]
        exact List.mem_map_of_mem f hb2
    · rcases List.mem_cons.mp hb with hb1 | hb2
      · exfalso
        apply hnd.1
        rw [← hb1, ← hf]
        exact List.mem_map_of_mem f ha2
      · exact ih hnd.2 a ha2 b hb2 hf

theorem findReachable_sub (Q : String → Prop) (rev : AL (List String))
    (hrev : ∀ k s, s ∈ alGetD rev k [] → Q (extractNodeIdFromSource s)) :
    ∀ (fuel : Nat) (q vis : List String),
    (∀ x ∈ q, Q x) → (∀ x ∈ vis, Q x) →
    ∀ x ∈ findReachable rev fuel q vis, Q x := by
  intro fuel
  induction fuel with
  | zero => exact fun q vis _ hvis x hx => hvis x hx
  | succ fuel ih =>
    intro q vis hq hvis x hx
    cases q with
    | nil => exact hvis x hx
    | cons y q =>
      simp only [findReachable] at hx
      by_cases hy : y ∈ vis
      · rw [if_pos hy] at hx
        exact ih q vis (fun z hz => hq z (List.mem_cons_of_mem _ hz)) hvis x hx
      · rw [if_neg hy] at hx
        have hvis2 : ∀ z ∈ vis ++ [y], Q z := by
          intro z hz
          rcases List.mem_append.mp hz with hz | hz
          · exact hvis z hz
          · rw [List.mem_singleton.mp hz]
            exact hq y (List.mem_cons_self _ _)
        have hq2 : ∀ z ∈ q ++ ((alGetD rev y []).map extractNodeIdFromSource).filter
            (fun d => d ∉ vis ++ [y]), Q z := by
          intro z hz
          rcases List.mem_append.mp hz with hz | hz
          · exact hq z (List.mem_cons_of_mem _ hz)
          · have hz2 := List.mem_of_mem_filter hz
            obtain ⟨s, hs, rfl⟩ := List.mem_map.mp hz2
            exact hrev y s hs
        exact ih _ _ hq2 hvis2 x hx

/- ------------------------------------------------------------------ -/
/- Amended C7: variable elimination under authoring discipline         -/
/- ------------------------------------------------------------------ -/

/-- The variable-typed nodes of a raw description, in order. -/
def varNodesOf (raw : RawGraph) : List RawNode :=
  raw.nodes.filter (fun n => n.type == Option.some "variable")

/-- The label group of variable nodes the elision builds for a label. -/
def varGroupOf (raw : RawGraph) (l : String) : List RawNode :=
  (varNodesOf raw).filter (fun n => n.data.label == l)

theorem processVariableNodes_eq (raw : RawGraph) :
    processVariableNodes raw
      = { nodes := raw.nodes,
          connections :=
            raw.connections.filter (fun c =>
              !(((variableRemovedConnections (variableGroups (varNodesOf raw))
                    (alGroup (fun c => c.source) (fun c => c) raw.connections)).map
                  connTuple).contains (connTuple c)))
            ++ variableNewConnections (variableGroups (varNodesOf raw))
                (alGroup (fun c => c.target) (fun c => c) raw.connections)
                (alGroup (fun c => c.source) (fun c => c) raw.connections) } := rfl

theorem varGroup_entry_mem (raw : RawGraph) (v : RawNode)
    (hv : v ∈ varNodesOf raw) (hl : v.data.label ≠ "") :
    (v.data.label, varGroupOf raw v.data.label)
      ∈ variableGroups (varNodesOf raw) := by
  have hgd : alGetD (variableGroups (varNodesOf raw)) v.data.label []
      = varGroupOf raw v.data.label := by
    unfold variableGroups varGroupOf
    rw [variableGroups_getD (varNodesOf raw) [] v.data.label hl]
    simp [alGetD, alGet]
  have hvin : v ∈ varGroupOf raw v.data.label := by
    unfold varGroupOf
    exact List.mem_filter.mpr ⟨hv, by simp⟩
  have hne : varGroupOf raw v.data.label ≠ [] := by
    intro h
    rw [h] at hvin
    cases hvin
  have := alGet_some_of_getD_ne_nil (m := variableGroups (varNodesOf raw))
    (k := v.data.label) (by rw [hgd]; exact hne)
  rw [hgd] at this
  exact alGet_mem this

theorem varGroups_entry_chars (raw : RawGraph) (l : String) (grp : List RawNode)
    (hmem : (l, grp) ∈ variableGroups (varNodesOf raw)) :
    grp = varGroupOf raw l ∧ l ≠ "" := by
  have hl : l ≠ "" := by
    have hk : l ∈ alKeys (variableGroups (varNodesOf raw)) :=
      List.mem_map_of_mem (fun p => p.1) hmem
    rcases variableGroups_keys (varNodesOf raw) [] l hk with h | h
    · simp [alKeys] at h
    · exact h
  have hget := alGet_of_mem_nodup (variableGroups_keys_nodup (varNodesOf raw)) hmem
  have hgd : alGetD (variableGroups (varNodesOf raw)) l []
      = varGroupOf raw l := by
    unfold variableGroups varGroupOf
    rw [variableGroups_getD (varNodesOf raw) [] l hl]
    simp [alGetD, alGet]
  rw [alGetD, hget] at hgd
  exact ⟨hgd.symm ▸ rfl, hl⟩

theorem bySource_getD (conns : List RawConn) (k : String) (c : RawConn) :
    c ∈ alGetD (alGroup (fun c => c.source) (fun c => c) conns) k []
      ↔ c ∈ conns ∧ c.source = k := by
  rw [alGroup_getD]
  constructor
  · intro h
    obtain ⟨c2, hc2, rfl⟩ := List.mem_map.mp h
    have := List.mem_filter.mp hc2
    exact ⟨this.1, by simpa using this.2⟩
  · intro ⟨h1, h2⟩
    exact List.mem_map.mpr ⟨c, List.mem_filter.mpr ⟨h1, by simpa using h2⟩, rfl⟩

theorem byTarget_getD (conns : List RawConn) (k : String) (c : RawConn) :
    c ∈ alGetD (alGroup (fun c => c.target) (fun c => c) conns) k []
      ↔ c ∈ conns ∧ c.target = k := by
  rw [alGroup_getD]
  constructor
  · intro h
    obtain ⟨c2, hc2, rfl⟩ := List.mem_map.mp h
    have := List.mem_filter.mp hc2
    exact ⟨this.1, by simpa using this.2⟩
  · intro ⟨h1, h2⟩
    exact List.mem_map.mpr ⟨c, List.mem_filter.mpr ⟨h1, by simpa using h2⟩, rfl⟩

theorem reader_conn_removed (groups : AL (List RawNode))
    (bySource : AL (List RawConn)) (l : String) (grp : List RawNode)
    (hmem : (l, grp) ∈ groups) (w : RawNode)
    (hw : groupWriter grp = Option.some w)
    (hr : groupReaders grp ≠ []) (r : RawNode) (hrr : r ∈ groupReaders grp)
    (c : RawConn) (hc : c ∈ alGetD bySource r.id []) :
    connTuple c ∈ (variableRemovedConnections groups bySource).map connTuple := by
  apply List.mem_map_of_mem
  unfold variableRemovedConnections
  apply List.mem_flatMap.mpr
  refine ⟨(l, grp), hmem, ?_⟩
  simp only [hw, if_neg hr]
  exact List.mem_flatMap.mpr ⟨r, hrr, hc⟩

theorem new_conn_origin (groups : AL (List RawNode))
    (byTarget bySource : AL (List RawConn)) (c : RawConn)
    (hc : c ∈ variableNewConnections groups byTarget bySource) :
    ∃ lg ∈ groups, ∃ w, groupWriter lg.2 = Option.some w
      ∧ ∃ ic ∈ alGetD byTarget w.id [], c.source = ic.source := by
  unfold variableNewConnections at hc
  obtain ⟨lg, hlg, hc2⟩ := List.mem_flatMap.mp hc
  cases hw : groupWriter lg.2 with
  | none =>
    rw [hw] at hc2
    cases hc2
  | some w =>
    rw [hw] at hc2
    by_cases hrd : groupReaders lg.2 = []
    · simp only [hrd, if_pos] at hc2
      cases hc2
    · simp only [if_neg hrd] at hc2
      obtain ⟨r, _, hc3⟩ := List.mem_flatMap.mp hc2
      obtain ⟨ic, hic, hc4⟩ := List.mem_flatMap.mp hc3
      obtain ⟨oc, _, hceq⟩ := List.mem_map.mp hc4
      exact ⟨lg, hlg, w, hw, ic, hic, by rw [← hceq]⟩

theorem elided_source_not_variable (raw : RawGraph)
    (H2 : ∀ v ∈ varNodesOf raw, v.data.label ≠ ""
      ∧ ((varGroupOf raw v.data.label).filter (fun n => n.data.is_input)).length = 1
      ∧ groupReaders (varGroupOf raw v.data.label) ≠ [])
    (H3 : ∀ c ∈ raw.connections, ∀ v ∈ varNodesOf raw,
      extractNodeIdFromSource c.source = v.id →
      c.source = v.id ∧ v.data.is_input = false)
    (H4 : ∀ c ∈ raw.connections, ∀ w ∈ varNodesOf raw, c.target = w.id →
      w.data.is_input = true → ∀ v ∈ varNodesOf raw,
      extractNodeIdFromSource c.source ≠ v.id) :
    ∀ c ∈ (processVariableNodes raw).connections, ∀ v ∈ varNodesOf raw,
    extractNodeIdFromSource c.source ≠ v.id := by
  intro c hc v hv heq
  rw [processVariableNodes_eq] at hc
  simp only at hc
  rcases List.mem_append.mp hc with hc | hc
  · -- a surviving original connection: its source would be a reader
    -- whose outgoing edges were all removed
    have hcf := List.mem_filter.mp hc
    obtain ⟨hbare, hreader⟩ := H3 c hcf.1 v hv heq
    obtain ⟨hl, hwone, hrne⟩ := H2 v hv
    have hvread : v ∈ groupReaders (varGroupOf raw v.data.label) := by
      unfold groupReaders
      refine List.mem_filter.mpr ⟨?_, by simp [hreader]⟩
      unfold varGroupOf
      exact List.mem_filter.mpr ⟨hv, by simp⟩
    have hwiso : ∃ w, groupWriter (varGroupOf raw v.data.label)
        = Option.some w := by
      have hne : (varGroupOf raw v.data.label).filter
          (fun n => n.data.is_input) ≠ [] := by
        intro h
        rw [h] at hwone
        simp at hwone
      obtain ⟨x, hx⟩ := List.exists_mem_of_ne_nil _ hne
      have hx2 := List.mem_filter.mp hx
      apply Option.isSome_iff_exists.mp
      unfold groupWriter
      rw [List.find?_isSome]
      exact ⟨x, hx2.1, hx2.2⟩
    obtain ⟨w, hw⟩ := hwiso
    have hcr : c ∈ alGetD (alGroup (fun c => c.source) (fun c => c)
        raw.connections) v.id [] :=
      (bySource_getD raw.connections v.id c).mpr ⟨hcf.1, hbare⟩
    have hrem := reader_conn_removed (variableGroups (varNodesOf raw))
      (alGroup (fun c => c.source) (fun c => c) raw.connections)
      v.data.label (varGroupOf raw v.data.label)
      (varGroup_entry_mem raw v hv hl) w hw hrne v hvread c hcr
    have := hcf.2
    rw [Bool.not_eq_true', ← Bool.not_eq_true] at this
    exact this (List.elem_iff.mpr hrem)
  · -- a synthesized connection: its source comes from an edge feeding
    -- a writer, which H4 forbids to be a variable node
    obtain ⟨lg, hlg, w, hw, ic, hic, hsrc⟩ := new_conn_origin _ _ _ c hc
    obtain ⟨hgrp, _⟩ := varGroups_entry_chars raw lg.1 lg.2 hlg
    have hwgrp : w ∈ lg.2 := List.mem_of_find?_eq_some hw
    have hwinp : w.data.is_input = true := by
      have := List.find?_some hw
      simpa using this
    have hwvar : w ∈ varNodesOf raw := by
      rw [hgrp] at hwgrp
      exact List.mem_of_mem_filter hwgrp
    obtain ⟨hicraw, hictgt⟩ := (byTarget_getD raw.connections w.id ic).mp hic
    have := H4 ic hicraw w hwvar hictgt hwinp v hv
    rw [hsrc] at heq
    exact this heq

theorem mem_outNodeIds (g : RawGraph) (x : String) :
    x ∈ outNodeIds g ↔ ∃ n ∈ g.nodes, n.type = Option.some "out" ∧ n.id = x := by
  unfold outNodeIds
  constructor
  · intro h
    have h2 := (foldl_setAdd_mem (fun s : String => s) _ [] x).mp h
    rcases h2 with h2 | ⟨b, hb, rfl⟩
    · cases h2
    · obtain ⟨n, hn, rfl⟩ := List.mem_map.mp hb
      have hf := List.mem_filter.mp hn
      exact ⟨n, hf.1, by simpa using hf.2, rfl⟩
  · rintro ⟨n, hn, htype, rfl⟩
    apply (foldl_setAdd_mem (fun s : String => s) _ [] n.id).mpr
    exact Or.inr ⟨n.id,
      List.mem_map.mpr ⟨n, List.mem_filter.mpr ⟨hn, by simp [htype]⟩, rfl⟩, rfl⟩

theorem variable_id_not_used (raw : RawGraph)
    (H1 : (raw.nodes.map (fun n => n.id)).Nodup)
    (H2 : ∀ v ∈ varNodesOf raw, v.data.label ≠ ""
      ∧ ((varGroupOf raw v.data.label).filter
          (fun n => n.data.is_input)).length = 1
      ∧ groupReaders (varGroupOf raw v.data.label) ≠ [])
    (H3 : ∀ c ∈ raw.connections, ∀ v ∈ varNodesOf raw,
      extractNodeIdFromSource c.source = v.id →
      c.source = v.id ∧ v.data.is_input = false)
    (H4 : ∀ c ∈ raw.connections, ∀ w ∈ varNodesOf raw, c.target = w.id →
      w.data.is_input = true → ∀ v ∈ varNodesOf raw,
      extractNodeIdFromSource c.source ≠ v.id)
    (v : RawNode) (hv : v ∈ varNodesOf raw) :
    v.id ∉ usedNodes (processVariableNodes raw) := by
  intro hused
  have hsrc := elided_source_not_variable raw H2 H3 H4
  have hvraw : v ∈ raw.nodes := List.mem_of_mem_filter hv
  have hvtype : v.type = Option.some "variable" := by
    simpa using (List.mem_filter.mp hv).2
  have hid_inj : ∀ n ∈ raw.nodes, n.id = v.id → n = v := fun n hn h =>
    map_nodup_inj (fun n => n.id) raw.nodes H1 n hn v hvraw h
  have hnodes : (processVariableNodes raw).nodes = raw.nodes := rfl
  simp only [usedNodes] at hused
  have h1 := (foldl_setAdd_mem (fun n : RawNode => n.id) _ _ v.id).mp hused
  rcases h1 with h1 | ⟨n, hn, hid⟩
  · have h2 := (foldl_setAdd_mem
      (fun c : RawConn => extractNodeIdFromSource c.source) _ _ v.id).mp h1
    rcases h2 with h2 | ⟨c, hc, hid⟩
    · -- backward-reachable from an output
      refine findReachable_sub (fun x => x ≠ v.id) _ ?_ _ _ _ ?_ ?_ v.id h2 rfl
      · intro k s hs
        rw [buildReverseGraph, alGroup_getD] at hs
        obtain ⟨c, hc, rfl⟩ := List.mem_map.mp hs
        exact hsrc c (List.mem_of_mem_filter hc) v hv
      · intro x hx h
        rw [h] at hx
        obtain ⟨n, hn, htype, hid⟩ := (mem_outNodeIds _ v.id).mp hx
        rw [hnodes] at hn
        rw [hid_inj n hn hid] at htype
        rw [hvtype] at htype
        simp at htype
      · intro x hx
        cases hx
    · -- source of a surviving connection
      exact hsrc c hc v hv hid.symm
  · -- an in-node sharing the id
    have hf := List.mem_filter.mp hn
    rw [hnodes] at hf
    have := hid_inj n hf.1 hid.symm
    rw [this] at hf
    have : v.type = Option.some "in" := by simpa using hf.2
    rw [hvtype] at this
    simp at this

/-- A well-disciplined fixture: input a7 feeds the writer w7 of the
variable group L, whose reader r7 feeds the output o7. -/
def c7good : RawGraph :=
  { nodes :=
      [ { id := "a7", uid := Option.some "a7", type := Option.some "in" },
        { id := "w7", uid := Option.some "w7", type := Option.some "variable",
          data := { label := "L", is_input := true } },
        { id := "r7", uid := Option.some "r7", type := Option.some "variable",
          data := { label := "L" } },
        { id := "o7", uid := Option.some "o7", type := Option.some "out" } ],
    connections :=
      [ { source := "a7", target := "w7", targetInput := "v" },
        { source := "r7", target := "o7", targetInput := "c" } ] }

/-- C7 (amended): under the authoring discipline — distinct node ids; every
variable node carries a non-empty label whose group has exactly one writer
and at least one reader; connections out of variable nodes use the bare id
as source and originate only at readers; no connection feeding a writer
originates at a variable node — optimize_graph eliminates the variable
nodes completely: no variable-typed node survives in the optimized node
list, and no optimized connection has a variable node as source or
target. -/
theorem variable_nodes_eliminated_under_discipline (raw : RawGraph)
    (H1 : (raw.nodes.map (fun n => n.id)).Nodup)
    (H2 : ∀ v ∈ varNodesOf raw, v.data.label ≠ ""
      ∧ ((varGroupOf raw v.data.label).filter
          (fun n => n.data.is_input)).length = 1
      ∧ groupReaders (varGroupOf raw v.data.label) ≠ [])
    (H3 : ∀ c ∈ raw.connections, ∀ v ∈ varNodesOf raw,
      extractNodeIdFromSource c.source = v.id →
      c.source = v.id ∧ v.data.is_input = false)
    (H4 : ∀ c ∈ raw.connections, ∀ w ∈ varNodesOf raw, c.target = w.id →
      w.data.is_input = true → ∀ v ∈ varNodesOf raw,
      extractNodeIdFromSource c.source ≠ v.id) :
    (∀ n ∈ (optimizeGraph raw).nodes, n.type ≠ Option.some "variable")
    ∧ (∀ c ∈ (optimizeGraph raw).connections, ∀ v ∈ varNodesOf raw,
        extractNodeIdFromSource c.source ≠ v.id ∧ c.target ≠ v.id) := by
  have hnot := variable_id_not_used raw H1 H2 H3 H4
  constructor
  · intro n hn htype
    have hf := List.mem_filter.mp hn
    have hmemu : n.id ∈ usedNodes (processVariableNodes raw) := by
      simpa using hf.2
    have hnvar : n ∈ varNodesOf raw := by
      unfold varNodesOf
      exact List.mem_filter.mpr ⟨hf.1, by simp [htype]⟩
    exact hnot n hnvar hmemu
  · intro c hc v hv
    have hf := List.mem_filter.mp hc
    have h2 : c.target ∈ usedNodes (processVariableNodes raw)
        ∧ extractNodeIdFromSource c.source
            ∈ usedNodes (processVariableNodes raw) := by
      simpa using hf.2
    constructor
    · intro h
      apply hnot v hv
      rw [← h]
      exact h2.2
    · intro h
      apply hnot v hv
      rw [← h]
      exact h2.1

theorem variable_nodes_eliminated_witness :
    ({ id := "a7", uid := Option.some "a7",
        type := Option.some "in" } : RawNode).type
      ≠ Option.some "variable" :=
  (variable_nodes_eliminated_under_discipline c7good (by decide) (by decide)
    (by decide) (by decide)).1
    { id := "a7", uid := Option.some "a7", type := Option.some "in" }
    (by decide)
